import Mathlib

/-!
# Word translation feature and crossing feature of the Moses decoder

A shallow embedding of `moses/src/WordTranslationFeature.cpp`
(`WordTranslationFeature::Load`, `Evaluate`, `EvaluateChart`) together with
theorems about the sparse features these functions produce, and a model of
the crossing table declared in `moses/src/CrossingFeature.h`.

Conventions of the embedding.

* A C++ `std::string` is a Lean `String`, a C++ `char` a Lean `Char`.
* `std::set<std::string>` is a list of strings used only through membership
  (`find`) and `insert`.
* Array positions (`size_t`, `int`) are natural numbers.  The only arithmetic
  is `GetStartPos() + index`, the position of a word in the sentence or in the
  hypothesis, which does not come near the width of `size_t`.
* A C++ exception, or an access outside a container, ends the call: the
  functions return `Except Failure _`.  The decoder does not catch the
  exception, so the accumulator is not looked at after one.
* Member functions take the object as an explicit argument; `Load`, which
  mutates the object, returns the new object next to its `bool` result.
* Messages written to `cerr` are not modelled.
-/

namespace Moses

/-! ## Host types -/

/-- Modelled from the spec: `Word` (Word.h is not among the sources).  A word
knows whether it is a non-terminal and gives, for each factor index, the
surface string of that factor (`GetFactor(i)->GetString()`). -/
structure Word where
  isNonTerminal : Bool
  factorString : Nat → String

/-- The ways a call can end abnormally. -/
inductive Failure where
  /-- The exception `std::out_of_range` thrown by `std::string::at`. -/
  | stringOutOfRange
  /-- The method `GetWord` called with a position outside the phrase, sentence or hypothesis. -/
  | wordOutOfRange
  deriving DecidableEq, Repr

/-- Modelled from the spec: `Phrase` and `Sentence` (Phrase.h, Sentence.h are
not among the sources): a sequence of words with indexed access and a size. -/
abbrev Phrase := List Word

/-- The input sentence attached by `InitializeForInput`. -/
abbrev Sentence := List Word

/-- The method `Phrase::GetWord(pos)`; a position outside the phrase has no word. -/
def Phrase.GetWord (p : Phrase) (pos : Nat) : Option Word := p.get? pos

/-- The method `Phrase::GetSize()`. -/
def Phrase.GetSize (p : Phrase) : Nat := p.length

/-- Modelled from the spec: `AlignmentInfo` (AlignmentInfo.h is not among the
sources).  The alignment is a sequence of (sourceIndex, targetIndex) pairs, in
the order `begin() .. end()` visits them; `GetTerminalAlignments()` is the
host's restriction of it to terminal-to-terminal links. -/
structure AlignmentInfo where
  points : List (Nat × Nat)
  terminalAlignments : List (Nat × Nat)

/-- Modelled from the spec: `TargetPhrase` (TargetPhrase.h is not among the
sources): the target words, the source phrase it translates
(`GetSourcePhrase()`) and the word alignment (`GetAlignmentInfo()`). -/
structure TargetPhrase where
  words : Phrase
  sourcePhrase : Phrase
  alignmentInfo : AlignmentInfo

/-- Modelled from the spec: the hypothesis view of `Hypothesis` (Hypothesis.h
is not among the sources): the current target phrase, the start positions of
the current source and target word ranges, and the read access `GetWord(pos)`
to the target words of the hypothesis.  `Hypothesis::GetWord` walks back
through the earlier hypotheses and answers for every position up to the end of
the current phrase; `Evaluate` asks it only for positions before a word of the
current phrase, so the access is a total function here. -/
structure Hypothesis where
  currTargetPhrase : TargetPhrase
  currSourceWordsRangeStart : Nat
  currTargetWordsRangeStart : Nat
  GetWord : Nat → Word

/-- Modelled from the spec: the hypothesis view of `ChartHypothesis`
(ChartHypothesis.h is not among the sources); `EvaluateChart` reads only its
current target phrase. -/
structure ChartHypothesis where
  currTargetPhrase : TargetPhrase

/-- Modelled from the spec: `ScoreComponentCollection`
(ScoreComponentCollection.h is not among the sources), the host-owned
accumulator.  It is represented by the log of the `SparsePlusEquals(name, amount)`
calls made on it, oldest first. -/
abbrev ScoreComponentCollection := List (String × Int)

/-- Modelled from the spec: the method
`ScoreComponentCollection::SparsePlusEquals(name, amount)`
(ScoreComponentCollection.h is not among the sources), the accumulator's
`AddSparse(name, amount)`: an additive increment, recorded at the end of the
log. -/
def SparsePlusEquals (name : String) (amount : Int)
    (accumulator : ScoreComponentCollection) : ScoreComponentCollection :=
  accumulator ++ [(name, amount)]

/-- The files a path can be opened on: `none` when the `ifstream` cannot be
opened, otherwise the lines `getline` reads from it, in order. -/
abbrev FileSystem := String → Option (List String)

/-! ## The feature object -/

/-- The data members of `WordTranslationFeature` read by the functions below
(the class declaration, WordTranslationFeature.h, is not among the sources).
The punctuation table `m_punctuationHash` is filled by the constructor, which
is not among the sources either; only its key set matters. -/
structure WordTranslationFeature where
  m_vocabSource : List String
  m_vocabTarget : List String
  m_factorTypeSource : Nat
  m_factorTypeTarget : Nat
  m_unrestricted : Bool
  m_simple : Bool
  m_sourceContext : Bool
  m_targetContext : Bool
  m_ignorePunctuation : Bool
  m_punctuationHash : List Char

/-- The loop `while (getline(file, line)) vocab.insert(line);`. -/
def insertLines (lines : List String) (vocab : List String) : List String :=
  lines.foldl (fun s line => List.insert line s) vocab

/-- The function `WordTranslationFeature::Load` (lines 13-46). -/
def Load (fs : FileSystem) (filePathSource filePathTarget : String)
    (F : WordTranslationFeature) : Bool × WordTranslationFeature :=
  match fs filePathSource with
  | none => (false, F)
  | some linesSource =>
    let F1 := { F with m_vocabSource := insertLines linesSource F.m_vocabSource }
    match fs filePathTarget with
    | none => (false, F1)
    | some linesTarget =>
      let F2 := { F1 with m_vocabTarget := insertLines linesTarget F1.m_vocabTarget }
      (true, { F2 with m_unrestricted := false })

/-! ## Pieces of `Evaluate` and `EvaluateChart` -/

/-- The expression `word.at(0)`: the first character, or `std::out_of_range`
for the empty string. -/
def stringAt0 (word : String) : Except Failure Char :=
  match word.data with
  | [] => .error .stringOutOfRange
  | c :: _ => .ok c

/-- The test `m_punctuationHash.find(word.at(0)) != m_punctuationHash.end()`. -/
def punctuationTest (F : WordTranslationFeature) (word : String) : Except Failure Bool :=
  match stringAt0 word with
  | .error e => .error e
  | .ok firstChar => .ok (decide (firstChar ∈ F.m_punctuationHash))

/-- Lines 71-81 (and 211-221): with punctuation filtering on, the source word
is tested first and the target word only when the source word is not
punctuation.  The result `true` stands for `continue`. -/
def punctuationSkip (F : WordTranslationFeature) (sourceWord targetWord : String) :
    Except Failure Bool :=
  if F.m_ignorePunctuation then
    match punctuationTest F sourceWord with
    | .error e => .error e
    | .ok true => .ok true
    | .ok false => punctuationTest F targetWord
  else .ok false

/-- Lines 83-88 (and 223-228) for one side: in restricted mode a word that is
not found in the vocabulary set is replaced by `"OTHER"`. -/
def restrictWord (unrestricted : Bool) (vocab : List String) (word : String) : String :=
  if !unrestricted then
    if word ∈ vocab then word else "OTHER"
  else word

/-- Lines 62-88 of `Evaluate`, repeated verbatim as lines 202-228 of
`EvaluateChart`: fetch the two words of an alignment point, skip
non-terminals, skip punctuation, restrict to the vocabulary.  The result
`none` stands for `continue`; otherwise it is the pair
`(sourceWord, targetWord)` after line 88. -/
def resolveAlignmentPoint (F : WordTranslationFeature) (targetPhrase : TargetPhrase)
    (alignmentPoint : Nat × Nat) : Except Failure (Option (String × String)) :=
  let sourceIndex := alignmentPoint.1
  let targetIndex := alignmentPoint.2
  match targetPhrase.sourcePhrase.GetWord sourceIndex with
  | none => .error .wordOutOfRange
  | some ws =>
    if F.m_factorTypeSource == 0 && ws.isNonTerminal then .ok none else
    match targetPhrase.words.GetWord targetIndex with
    | none => .error .wordOutOfRange
    | some wt =>
      if F.m_factorTypeSource == 0 && wt.isNonTerminal then .ok none else
      let sourceWord := ws.factorString F.m_factorTypeSource
      let targetWord := wt.factorString F.m_factorTypeTarget
      match punctuationSkip F sourceWord targetWord with
      | .error e => .error e
      | .ok true => .ok none
      | .ok false =>
        .ok (some (restrictWord F.m_unrestricted F.m_vocabSource sourceWord,
                   restrictWord F.m_unrestricted F.m_vocabTarget targetWord))

/-- Lines 90-100 (and 230-240): the simple feature `wt_<source>~<target>`. -/
def simpleStep (F : WordTranslationFeature) (sourceWord targetWord : String)
    (accumulator : ScoreComponentCollection) : ScoreComponentCollection :=
  if F.m_simple then
    SparsePlusEquals ("wt_" ++ sourceWord ++ "~" ++ targetWord) 1 accumulator
  else accumulator

/-- A `for` loop whose body may `continue` (return the state it was given) or
throw (return an error, which ends the loop). -/
def forEach {α σ : Type} (body : α → σ → Except Failure σ) :
    List α → σ → Except Failure σ
  | [], s => .ok s
  | x :: xs, s =>
    match body x s with
    | .error e => .error e
    | .ok s' => forEach body xs s'

/-- The test of lines 118-124 (and 165-171) on a context word; `true` stands
for `continue`. -/
def triggerPunctuationSkip (F : WordTranslationFeature) (trigger : String) :
    Except Failure Bool :=
  if F.m_ignorePunctuation then punctuationTest F trigger else .ok false

/-- Lines 116-146: one round of the loop over the source context. -/
def sourceContextIteration (F : WordTranslationFeature) (input : Sentence)
    (globalSourceIndex : Nat) (sourceWord targetWord : String) (contextIndex : Nat)
    (accumulator : ScoreComponentCollection) : Except Failure ScoreComponentCollection :=
  if contextIndex = globalSourceIndex then .ok accumulator else
  match Phrase.GetWord input contextIndex with
  | none => .error .wordOutOfRange
  | some w =>
    let sourceTrigger := w.factorString F.m_factorTypeSource
    match triggerPunctuationSkip F sourceTrigger with
    | .error e => .error e
    | .ok true => .ok accumulator
    | .ok false =>
      let sourceTriggerExists : Bool :=
        if !F.m_unrestricted then decide (sourceTrigger ∈ F.m_vocabSource) else false
      if F.m_unrestricted || sourceTriggerExists then
        if contextIndex < globalSourceIndex then
          .ok (SparsePlusEquals
            ("wt_" ++ sourceTrigger ++ "," ++ sourceWord ++ "~" ++ targetWord) 1 accumulator)
        else
          .ok (SparsePlusEquals
            ("wt_" ++ sourceWord ++ "," ++ sourceTrigger ++ "~" ++ targetWord) 1 accumulator)
      else .ok accumulator

/-- Lines 102-147: the source-context step for one alignment point. -/
def sourceContextStep (F : WordTranslationFeature) (input : Sentence)
    (globalSourceIndex : Nat) (sourceWord targetWord : String)
    (accumulator : ScoreComponentCollection) : Except Failure ScoreComponentCollection :=
  let accumulator1 :=
    if globalSourceIndex = 0 then
      SparsePlusEquals ("wt_" ++ "<s>," ++ sourceWord ++ "~" ++ targetWord) 1 accumulator
    else accumulator
  forEach (sourceContextIteration F input globalSourceIndex sourceWord targetWord)
    (List.range (Phrase.GetSize input)) accumulator1

/-- Lines 164-186: one round of the loop over the target context. -/
def targetContextIteration (F : WordTranslationFeature) (cur_hypo : Hypothesis)
    (sourceWord targetWord : String) (contextIndex : Nat)
    (accumulator : ScoreComponentCollection) : Except Failure ScoreComponentCollection :=
  let targetTrigger := (cur_hypo.GetWord contextIndex).factorString F.m_factorTypeTarget
  match triggerPunctuationSkip F targetTrigger with
  | .error e => .error e
  | .ok true => .ok accumulator
  | .ok false =>
    let targetTriggerExists : Bool :=
      if !F.m_unrestricted then decide (targetTrigger ∈ F.m_vocabTarget) else false
    if F.m_unrestricted || targetTriggerExists then
      .ok (SparsePlusEquals
        ("wt_" ++ sourceWord ++ "~" ++ targetTrigger ++ "," ++ targetWord) 1 accumulator)
    else .ok accumulator

/-- Lines 150-187: the target-context step for one alignment point. -/
def targetContextStep (F : WordTranslationFeature) (cur_hypo : Hypothesis)
    (globalTargetIndex : Nat) (sourceWord targetWord : String)
    (accumulator : ScoreComponentCollection) : Except Failure ScoreComponentCollection :=
  let accumulator1 :=
    if globalTargetIndex = 0 then
      SparsePlusEquals ("wt_" ++ sourceWord ++ "~" ++ "<s>," ++ targetWord) 1 accumulator
    else accumulator
  forEach (targetContextIteration F cur_hypo sourceWord targetWord)
    (List.range globalTargetIndex) accumulator1

/-- Lines 90-188 of `Evaluate` for one alignment point, given the two words
left by line 88: the simple step, then the source-context step, then the
target-context step. -/
def featureSteps (F : WordTranslationFeature) (input : Sentence) (cur_hypo : Hypothesis)
    (alignmentPoint : Nat × Nat) (sourceWord targetWord : String)
    (accumulator : ScoreComponentCollection) : Except Failure ScoreComponentCollection :=
  match (if F.m_sourceContext then
      sourceContextStep F input (cur_hypo.currSourceWordsRangeStart + alignmentPoint.1)
        sourceWord targetWord (simpleStep F sourceWord targetWord accumulator)
    else .ok (simpleStep F sourceWord targetWord accumulator)) with
  | .error e => .error e
  | .ok accumulator2 =>
    if F.m_targetContext then
      targetContextStep F cur_hypo (cur_hypo.currTargetWordsRangeStart + alignmentPoint.2)
        sourceWord targetWord accumulator2
    else .ok accumulator2

/-- Lines 62-188: the body of the loop of `Evaluate` for one alignment point. -/
def EvaluatePoint (F : WordTranslationFeature) (input : Sentence) (cur_hypo : Hypothesis)
    (alignmentPoint : Nat × Nat) (accumulator : ScoreComponentCollection) :
    Except Failure ScoreComponentCollection :=
  match resolveAlignmentPoint F cur_hypo.currTargetPhrase alignmentPoint with
  | .error e => .error e
  | .ok none => .ok accumulator
  | .ok (some (sourceWord, targetWord)) =>
    featureSteps F input cur_hypo alignmentPoint sourceWord targetWord accumulator

/-- The function `WordTranslationFeature::Evaluate` (lines 54-190); `input` is
the sentence `m_local->input` attached by `InitializeForInput`. -/
def Evaluate (F : WordTranslationFeature) (input : Sentence) (cur_hypo : Hypothesis)
    (accumulator : ScoreComponentCollection) : Except Failure ScoreComponentCollection :=
  forEach (EvaluatePoint F input cur_hypo)
    cur_hypo.currTargetPhrase.alignmentInfo.points accumulator

/-- Lines 202-240: the body of the loop of `EvaluateChart` for one alignment
point.  The two context steps are commented out in the source (lines 241-335). -/
def EvaluateChartPoint (F : WordTranslationFeature) (cur_hypo : ChartHypothesis)
    (alignmentPoint : Nat × Nat) (accumulator : ScoreComponentCollection) :
    Except Failure ScoreComponentCollection :=
  match resolveAlignmentPoint F cur_hypo.currTargetPhrase alignmentPoint with
  | .error e => .error e
  | .ok none => .ok accumulator
  | .ok (some (sourceWord, targetWord)) => .ok (simpleStep F sourceWord targetWord accumulator)

/-- The function `WordTranslationFeature::EvaluateChart` (lines 192-337); the
argument `featureID` (here `_featureID`) is not used by the body. -/
def EvaluateChart (F : WordTranslationFeature) (cur_hypo : ChartHypothesis)
    (_featureID : Int) (accumulator : ScoreComponentCollection) :
    Except Failure ScoreComponentCollection :=
  forEach (EvaluateChartPoint F cur_hypo)
    cur_hypo.currTargetPhrase.alignmentInfo.terminalAlignments accumulator

/-! ## Sample data -/

/-- A terminal word whose every factor is the given string. -/
def terminal (s : String) : Word := { isNonTerminal := false, factorString := fun _ => s }

/-- A feature object as the constructor leaves it: empty vocabularies,
unrestricted, simple mode only, surface factors, no punctuation filtering. -/
def freshFeature (punctuation : List Char) : WordTranslationFeature :=
  { m_vocabSource := [], m_vocabTarget := [], m_factorTypeSource := 0, m_factorTypeTarget := 0,
    m_unrestricted := true, m_simple := true, m_sourceContext := false,
    m_targetContext := false, m_ignorePunctuation := false, m_punctuationHash := punctuation }

/-- A hypothesis translating one source word at source position `sourceStart`
by one target word at target position `placed.length`, aligned to each other;
its target words are the words placed before, then the target word. -/
def oneWordHypothesis (source target : String) (sourceStart : Nat) (placed : List String) :
    Hypothesis :=
  { currTargetPhrase :=
      { words := [terminal target], sourcePhrase := [terminal source],
        alignmentInfo := { points := [(0, 0)], terminalAlignments := [(0, 0)] } },
    currSourceWordsRangeStart := sourceStart,
    currTargetWordsRangeStart := placed.length,
    GetWord := fun pos => (placed.map terminal ++ [terminal target]).getD pos (terminal target) }

/-! ## Predicates used in the statements -/

/-- The word has a first character and it is a key of the punctuation table. -/
def startsWithPunctuation (F : WordTranslationFeature) (word : String) : Prop :=
  ∃ c rest, word.data = c :: rest ∧ c ∈ F.m_punctuationHash

/-- The word has a first character and it is not a key of the punctuation table. -/
def startsWithOther (F : WordTranslationFeature) (word : String) : Prop :=
  ∃ c rest, word.data = c :: rest ∧ c ∉ F.m_punctuationHash

/-- The context word at position `p` of a phrase under factor `ft`. -/
def triggerAt (ws : Phrase) (ft : Nat) (p : Nat) : String :=
  match ws.GetWord p with
  | some w => w.factorString ft
  | none => ""

/-- The boundary feature of the source-context step, emitted when the global
source position is 0. -/
def sourceBoundary (g : Nat) (s t : String) : List (String × Int) :=
  if g = 0 then [("wt_" ++ "<s>," ++ s ++ "~" ++ t, 1)] else []

/-- The context feature of the source-context step for context position `p`. -/
def sourceContextFeature (input : Sentence) (ft g : Nat) (s t : String) (p : Nat) :
    String × Int :=
  (if p < g then "wt_" ++ triggerAt input ft p ++ "," ++ s ++ "~" ++ t
   else "wt_" ++ s ++ "," ++ triggerAt input ft p ++ "~" ++ t, 1)

/-- The boundary feature of the target-context step, emitted when the global
target position is 0. -/
def targetBoundary (g : Nat) (s t : String) : List (String × Int) :=
  if g = 0 then [("wt_" ++ s ++ "~" ++ "<s>," ++ t, 1)] else []

/-- The context feature of the target-context step for context position `p`. -/
def targetContextFeature (cur_hypo : Hypothesis) (ft : Nat) (s t : String) (p : Nat) :
    String × Int :=
  ("wt_" ++ s ++ "~" ++ (cur_hypo.GetWord p).factorString ft ++ "," ++ t, 1)

/-- The alignment point reaches the punctuation test of lines 71-81 (both
words are fetched and neither is skipped as a non-terminal) with an empty word
that the test reads: the source word is empty, or the source word starts with
a non-punctuation character and the target word is empty. -/
def readsEmptyWord (F : WordTranslationFeature) (tp : TargetPhrase) (pt : Nat × Nat) : Prop :=
  ∃ ws wt, tp.sourcePhrase.GetWord pt.1 = some ws ∧ tp.words.GetWord pt.2 = some wt ∧
    (F.m_factorTypeSource == 0 && ws.isNonTerminal) = false ∧
    (F.m_factorTypeSource == 0 && wt.isNonTerminal) = false ∧
    (ws.factorString F.m_factorTypeSource = "" ∨
      (startsWithOther F (ws.factorString F.m_factorTypeSource) ∧
        wt.factorString F.m_factorTypeTarget = ""))

/-- A file system with a source vocabulary file holding the lines "the", "cat"
and a target vocabulary file holding "le", "chat"; no other path can be opened. -/
def sampleFiles : FileSystem := fun path =>
  if path = "source.vocab" then some ["the", "cat"]
  else if path = "target.vocab" then some ["le", "chat"]
  else none

/-- The input sentence "the cat sat". -/
def sampleSentence : Sentence := ["the", "cat", "sat"].map terminal

/-- The chart hypothesis over the same target phrase as a hypothesis. -/
def chartOf (cur_hypo : Hypothesis) : ChartHypothesis :=
  { currTargetPhrase := cur_hypo.currTargetPhrase }

/-- A feature object with every feature mode on, unrestricted, filtering
punctuation on the comma. -/
def filteringFeature : WordTranslationFeature :=
  { freshFeature [','] with
    m_sourceContext := true, m_targetContext := true, m_ignorePunctuation := true }

/-- The simple feature of an alignment point of a target phrase: the call
`SparsePlusEquals("wt_" ++ source ++ "~" ++ target, 1)` on the two words of
the point after vocabulary restriction. -/
def simpleFeature (F : WordTranslationFeature) (tp : TargetPhrase) (pt : Nat × Nat) :
    String × Int :=
  ("wt_" ++
    restrictWord F.m_unrestricted F.m_vocabSource
      (triggerAt tp.sourcePhrase F.m_factorTypeSource pt.1) ++ "~" ++
    restrictWord F.m_unrestricted F.m_vocabTarget
      (triggerAt tp.words F.m_factorTypeTarget pt.2), 1)

/-- A feature object restricted to the source vocabulary "the", "cat" and the
target vocabulary "le", "chat", with every feature mode on and no punctuation
filtering. -/
def restrictedFeature : WordTranslationFeature :=
  { freshFeature [] with
    m_vocabSource := ["the", "cat"], m_vocabTarget := ["le", "chat"], m_unrestricted := false,
    m_sourceContext := true, m_targetContext := true }

/-- A non-terminal word whose every factor is the given string. -/
def nonTerminal (s : String) : Word := { isNonTerminal := true, factorString := fun _ => s }

/-- A feature object in simple mode that reads factor 1 on the source side and
the surface factor 0 on the target side. -/
def mixedFactorFeature : WordTranslationFeature :=
  { freshFeature [] with m_factorTypeSource := 1, m_factorTypeTarget := 0 }

/-- A hypothesis whose one alignment point aligns the terminal source word
"chat" to a non-terminal target word "X". -/
def nonTerminalTargetHypothesis : Hypothesis :=
  { currTargetPhrase :=
      { words := [nonTerminal "X"], sourcePhrase := [terminal "chat"],
        alignmentInfo := { points := [(0, 0)], terminalAlignments := [] } },
    currSourceWordsRangeStart := 0,
    currTargetWordsRangeStart := 0,
    GetWord := fun _ => nonTerminal "X" }

/-- The computation either throws the same failure on every accumulator, or
appends to every accumulator the same list of entries, all of amount 1. -/
def EmitsOnes (f : ScoreComponentCollection → Except Failure ScoreComponentCollection) : Prop :=
  (∃ e, ∀ a, f a = .error e) ∨
  (∃ l : List (String × Int), (∀ x ∈ l, x.2 = 1) ∧ ∀ a, f a = .ok (a ++ l))

/-- The names `"wt_" ++ s ++ "~" ++ t` where `s` is a member of the source
vocabulary set or "OTHER" and `t` is a member of the target vocabulary set or
"OTHER". -/
def restrictedSimpleNames (F : WordTranslationFeature) : Finset String :=
  Finset.image (fun p : String × String => "wt_" ++ p.1 ++ "~" ++ p.2)
    ((insert "OTHER" F.m_vocabSource.toFinset) ×ˢ (insert "OTHER" F.m_vocabTarget.toFinset))

/-! ## The crossing feature (`CrossingFeature.h`) -/

/-- Modelled from the spec: the key `CrossingFeatureData` of the crossing
table.  CrossingFeature.h declares its three members `m_length`, `m_nonTerm`
and `m_isCrossing`; the neighbour non-terminal `m_nonTerm`, a `Word` in the
header, is represented by its label, which the spec compares
lexicographically. -/
structure CrossingFeatureData where
  m_length : Int
  m_nonTerm : String
  m_isCrossing : Bool
  deriving DecidableEq

/-- Modelled from the spec: `CrossingFeatureData::operator<`, which
CrossingFeature.h only declares (its body is not among the sources): compare
the span length, then the neighbour tag lexicographically, then the crossing
flag, false before true. -/
def CrossingFeatureData.lt (a compare : CrossingFeatureData) : Bool :=
  if a.m_length ≠ compare.m_length then decide (a.m_length < compare.m_length)
  else if a.m_nonTerm ≠ compare.m_nonTerm then decide (a.m_nonTerm < compare.m_nonTerm)
  else !a.m_isCrossing && compare.m_isCrossing

/-- The member `std::map<CrossingFeatureData, float> m_data` of
`CrossingFeature`, represented by the list of the assignments made to it,
newest first.  Weights are exact numbers here, not floats; no arithmetic is
done on them. -/
abbrev CrossingTable := List (CrossingFeatureData × ℚ)

/-- The lookup `m_data.find(key)`: a `std::map` takes two keys for the same
when neither is less than the other; the newest assignment to such a key is
the value the map holds. -/
def CrossingTable.find (m_data : CrossingTable) (key : CrossingFeatureData) : Option ℚ :=
  (List.find? (fun entry => !entry.1.lt key && !key.lt entry.1) m_data).map Prod.snd

/-- The assignment `m_data[key] = weight`. -/
def CrossingTable.assign (m_data : CrossingTable) (key : CrossingFeatureData) (weight : ℚ) :
    CrossingTable :=
  (key, weight) :: m_data

/-- The crossing-model files a path can be opened on: `none` when the file
cannot be opened, otherwise its records (spanLength, neighborTag,
crossingFlag, weight), one per line, in order. -/
abbrev CrossingFiles := String → Option (List (CrossingFeatureData × ℚ))

/-- Modelled from the spec: `CrossingFeature::LoadDataFile`, which
CrossingFeature.h only declares: it fails if the path cannot be opened and
otherwise enters the records of the file into the map one after the other, a
later record with the same key overwriting an earlier one. -/
def LoadDataFile (fs : CrossingFiles) (dataPath : String) (m_data : CrossingTable) :
    Bool × CrossingTable :=
  match fs dataPath with
  | none => (false, m_data)
  | some records => (true, records.foldl (fun m record => m.assign record.1 record.2) m_data)

/-- Modelled from the spec: `Score(spanLength, neighborTag, isCrossing)`, the
stored weight for an exact key match and the default 0.0 otherwise. -/
def Score (m_data : CrossingTable) (spanLength : Int) (neighborTag : String)
    (isCrossing : Bool) : ℚ :=
  match m_data.find { m_length := spanLength, m_nonTerm := neighborTag,
                      m_isCrossing := isCrossing } with
  | some weight => weight
  | none => 0

/-- The record is the last one of the file for its key. -/
def lastRecordFor (records : List (CrossingFeatureData × ℚ)) (key : CrossingFeatureData)
    (weight : ℚ) : Prop :=
  ∃ before after, records = before ++ (key, weight) :: after ∧ ∀ r ∈ after, r.1 ≠ key

/-- A crossing-model file with two records for the key (2, "NP", crossing),
and one for the key (3, "X", not crossing). -/
def sampleCrossingFiles : CrossingFiles := fun path =>
  if path = "crossing.model" then
    some [({ m_length := 2, m_nonTerm := "NP", m_isCrossing := true }, 1),
          ({ m_length := 3, m_nonTerm := "X", m_isCrossing := false }, 4),
          ({ m_length := 2, m_nonTerm := "NP", m_isCrossing := true }, 7)]
  else if path = "empty.model" then some []
  else none

/-! ## Closed forms used in the statements about `Evaluate` -/

/-- Whether the word at a position of a phrase is a non-terminal (false when
the phrase has no such position). -/
def isNonTerminalAt (ws : Phrase) (p : Nat) : Bool :=
  match ws.GetWord p with
  | some w => w.isNonTerminal
  | none => false

/-- The source word of an alignment point, read under the source factor. -/
def sourceWordAt (F : WordTranslationFeature) (tp : TargetPhrase) (pt : Nat × Nat) : String :=
  triggerAt tp.sourcePhrase F.m_factorTypeSource pt.1

/-- The target word of an alignment point, read under the target factor. -/
def targetWordAt (F : WordTranslationFeature) (tp : TargetPhrase) (pt : Nat × Nat) : String :=
  triggerAt tp.words F.m_factorTypeTarget pt.2

/-- The alignment point is skipped by the non-terminal tests of lines 66 and
68 (both of which test `m_factorTypeSource == 0`). -/
def pointSkipped (F : WordTranslationFeature) (tp : TargetPhrase) (pt : Nat × Nat) : Bool :=
  F.m_factorTypeSource == 0 &&
    (isNonTerminalAt tp.sourcePhrase pt.1 || isNonTerminalAt tp.words pt.2)

/-- Every alignment point of the list indexes a word of the source phrase and
a word of the target phrase. -/
def pointsInRange (tp : TargetPhrase) (points : List (Nat × Nat)) : Prop :=
  ∀ pt ∈ points, pt.1 < tp.sourcePhrase.length ∧ pt.2 < tp.words.length

/-- The alignment point passes lines 62-81: both words are fetched, neither
is skipped as a non-terminal, and the punctuation test neither skips the point
nor throws. -/
def reachesFeatureSteps (F : WordTranslationFeature) (tp : TargetPhrase) (pt : Nat × Nat) :
    Prop :=
  ∃ ws wt, tp.sourcePhrase.GetWord pt.1 = some ws ∧ tp.words.GetWord pt.2 = some wt ∧
    (F.m_factorTypeSource == 0 && ws.isNonTerminal) = false ∧
    (F.m_factorTypeSource == 0 && wt.isNonTerminal) = false ∧
    punctuationSkip F (ws.factorString F.m_factorTypeSource)
      (wt.factorString F.m_factorTypeTarget) = .ok false

/-- The entries the simple step adds for a pair of words. -/
def simpleEmission (F : WordTranslationFeature) (s t : String) : List (String × Int) :=
  if F.m_simple then [("wt_" ++ s ++ "~" ++ t, 1)] else []

/-- The entries the source-context step adds for a pair of words at global
source position `g` when punctuation filtering is off: none when the mode is
off; otherwise the boundary feature when `g = 0`, then the context feature of
every sentence position other than `g` whose word passes the vocabulary test. -/
def sourceContextEmissions (F : WordTranslationFeature) (input : Sentence) (g : Nat)
    (s t : String) : List (String × Int) :=
  if F.m_sourceContext then
    sourceBoundary g s t ++
      ((List.range input.length).filter (fun p => decide (p ≠ g) &&
          (F.m_unrestricted ||
            decide (triggerAt input F.m_factorTypeSource p ∈ F.m_vocabSource)))).map
        (sourceContextFeature input F.m_factorTypeSource g s t)
  else []

/-- The entries the target-context step adds for a pair of words at global
target position `g` when punctuation filtering is off: none when the mode is
off; otherwise the boundary feature when `g = 0`, then the context feature of
every earlier target position whose word passes the vocabulary test. -/
def targetContextEmissions (F : WordTranslationFeature) (cur_hypo : Hypothesis) (g : Nat)
    (s t : String) : List (String × Int) :=
  if F.m_targetContext then
    targetBoundary g s t ++
      ((List.range g).filter (fun p => F.m_unrestricted ||
          decide ((cur_hypo.GetWord p).factorString F.m_factorTypeTarget ∈
            F.m_vocabTarget))).map
        (targetContextFeature cur_hypo F.m_factorTypeTarget s t)
  else []

/-- The word lines 83-88 leave in restricted mode: the word itself when it is
a member of the vocabulary set, "OTHER" otherwise. -/
def orOther (vocab : List String) (word : String) : String :=
  if word ∈ vocab then word else "OTHER"

/-- A hypothesis translating the two source words "the the" at the start of
the sentence by the two target words "le le", aligned one to one. -/
def twiceTheHypothesis : Hypothesis :=
  { currTargetPhrase :=
      { words := [terminal "le", terminal "le"], sourcePhrase := [terminal "the", terminal "the"],
        alignmentInfo := { points := [(0, 0), (1, 1)], terminalAlignments := [(0, 0), (1, 1)] } },
    currSourceWordsRangeStart := 0,
    currTargetWordsRangeStart := 0,
    GetWord := fun _ => terminal "le" }

/-! ## The accumulator as a mapping from names to values -/

/-- Modelled from the spec: the state of the host's accumulator
(ScoreComponentCollection.h is not among the sources), a mapping from sparse
feature name to accumulated value, after the logged `SparsePlusEquals` calls
have been made on it in order.  A call adds its amount to the value of its
name and leaves every other name alone.  The carrier `V` of the values and the
addition `plus` of an amount to a value are those of the accumulator; nothing
is assumed of them, so that `plus` can be float addition. -/
def applyCalls {V : Type} (plus : V → Int → V) (values : String → V)
    (calls : ScoreComponentCollection) : String → V :=
  calls.foldl (fun m call => fun name => if name = call.1 then plus (m name) call.2 else m name)
    values

/-- Modelled from the spec: the accumulator holds `float` values.  This is the
number of low bits a natural number loses when it is written with the 24-bit
significand of a float; the first argument bounds the recursion. -/
def float32Exponent : Nat → Nat → Nat
  | 0, _ => 0
  | fuel + 1, n => if n < 2 ^ 24 then 0 else float32Exponent fuel (n / 2) + 1

/-- Modelled from the spec: the accumulator holds `float` values, IEEE binary32
numbers with a significand of 24 bits.  This is the rounding of a natural
number to the nearest such number, ties to the even significand (numbers far
below the overflow threshold 2^128). -/
def float32Round (n : Nat) : Nat :=
  let e := float32Exponent n n
  let q := n / 2 ^ e
  let r := n % 2 ^ e
  if 2 * r > 2 ^ e ∨ (2 * r = 2 ^ e ∧ q % 2 = 1) then (q + 1) * 2 ^ e else q * 2 ^ e

/-- Modelled from the spec: float addition `value + amount` on values that are
whole numbers, the correctly rounded exact sum. -/
def float32Plus (value : Int) (amount : Int) : Int :=
  if value + amount < 0 then -(float32Round (value + amount).natAbs : Int)
  else (float32Round (value + amount).natAbs : Int)

/-- A feature object in simple mode only, restricted to the source vocabulary
"the", "cat" and the target vocabulary "le", "chat", filtering punctuation on
the comma. -/
def restrictedFilteringFeature : WordTranslationFeature :=
  { freshFeature [','] with
    m_vocabSource := ["the", "cat"], m_vocabTarget := ["le", "chat"], m_unrestricted := false,
    m_ignorePunctuation := true }

/-! ## Lemmas on the pieces -/

theorem forEach_emit {α : Type}
    (body : α → ScoreComponentCollection → Except Failure ScoreComponentCollection)
    (g : α → List (String × Int)) (xs : List α)
    (h : ∀ x ∈ xs, ∀ acc, body x acc = .ok (acc ++ g x)) (acc : ScoreComponentCollection) :
    forEach body xs acc = .ok (acc ++ (xs.map g).flatten) := by
  induction xs generalizing acc with
  | nil => simp [forEach]
  | cons x xs ih =>
    have hx := h x (List.mem_cons_self x xs) acc
    simp only [forEach, hx]
    rw [ih (fun y hy => h y (List.mem_cons_of_mem x hy))]
    simp [List.append_assoc]

theorem forEach_error_of_mem {α σ : Type} (body : α → σ → Except Failure σ) (xs : List α)
    (x : α) (hx : x ∈ xs) (h : ∀ s, ∃ e, body x s = .error e) (s : σ) :
    ∃ e, forEach body xs s = .error e := by
  induction xs generalizing s with
  | nil => cases hx
  | cons y ys ih =>
    simp only [forEach]
    rcases List.mem_cons.mp hx with rfl | hmem
    · obtain ⟨e, he⟩ := h s
      exact ⟨e, by rw [he]⟩
    · cases hb : body y s with
      | error e => exact ⟨e, rfl⟩
      | ok s' => exact ih hmem s'

theorem restrictWord_unrestricted (vocab : List String) (word : String) :
    restrictWord true vocab word = word := by
  simp [restrictWord]

theorem restrictWord_mem (vocab : List String) (word : String) (h : word ∈ vocab) :
    restrictWord false vocab word = word := by
  simp [restrictWord, h]

theorem restrictWord_not_mem (vocab : List String) (word : String) (h : word ∉ vocab) :
    restrictWord false vocab word = "OTHER" := by
  simp [restrictWord, h]

theorem punctuationTest_empty (F : WordTranslationFeature) (word : String)
    (h : word.data = []) : punctuationTest F word = .error .stringOutOfRange := by
  simp [punctuationTest, stringAt0, h]

theorem punctuationTest_punctuation (F : WordTranslationFeature) (word : String)
    (h : startsWithPunctuation F word) : punctuationTest F word = .ok true := by
  obtain ⟨c, rest, hd, hc⟩ := h
  simp [punctuationTest, stringAt0, hd, hc]

theorem punctuationTest_other (F : WordTranslationFeature) (word : String)
    (h : startsWithOther F word) : punctuationTest F word = .ok false := by
  obtain ⟨c, rest, hd, hc⟩ := h
  simp [punctuationTest, stringAt0, hd, hc]

theorem punctuationSkip_off (F : WordTranslationFeature) (s t : String)
    (h : F.m_ignorePunctuation = false) : punctuationSkip F s t = .ok false := by
  simp [punctuationSkip, h]

theorem punctuationSkip_pass (F : WordTranslationFeature) (s t : String)
    (h : F.m_ignorePunctuation = true → startsWithOther F s ∧ startsWithOther F t) :
    punctuationSkip F s t = .ok false := by
  cases hi : F.m_ignorePunctuation with
  | false => exact punctuationSkip_off F s t hi
  | true =>
    obtain ⟨hs, ht⟩ := h hi
    simp [punctuationSkip, hi, punctuationTest_other F s hs, punctuationTest_other F t ht]

/-- What lines 62-88 compute once both words of the point have been fetched
and neither is skipped as a non-terminal. -/
theorem resolveAlignmentPoint_of_words (F : WordTranslationFeature) (tp : TargetPhrase)
    (pt : Nat × Nat) (ws wt : Word)
    (hws : tp.sourcePhrase.GetWord pt.1 = some ws) (hwt : tp.words.GetWord pt.2 = some wt)
    (hs : (F.m_factorTypeSource == 0 && ws.isNonTerminal) = false)
    (ht : (F.m_factorTypeSource == 0 && wt.isNonTerminal) = false) :
    resolveAlignmentPoint F tp pt =
      match punctuationSkip F (ws.factorString F.m_factorTypeSource)
          (wt.factorString F.m_factorTypeTarget) with
      | .error e => .error e
      | .ok true => .ok none
      | .ok false =>
        .ok (some (restrictWord F.m_unrestricted F.m_vocabSource
                    (ws.factorString F.m_factorTypeSource),
                   restrictWord F.m_unrestricted F.m_vocabTarget
                    (wt.factorString F.m_factorTypeTarget))) := by
  simp only [resolveAlignmentPoint, hws, hwt, hs, ht]
  rfl

/-- When lines 62-88 hand a pair of words to the feature steps, both words of
the point were fetched and the pair is their restriction to the vocabulary. -/
theorem resolveAlignmentPoint_some (F : WordTranslationFeature) (tp : TargetPhrase)
    (pt : Nat × Nat) (sourceWord targetWord : String)
    (h : resolveAlignmentPoint F tp pt = .ok (some (sourceWord, targetWord))) :
    ∃ ws wt, tp.sourcePhrase.GetWord pt.1 = some ws ∧ tp.words.GetWord pt.2 = some wt ∧
      sourceWord = restrictWord F.m_unrestricted F.m_vocabSource
        (ws.factorString F.m_factorTypeSource) ∧
      targetWord = restrictWord F.m_unrestricted F.m_vocabTarget
        (wt.factorString F.m_factorTypeTarget) := by
  unfold resolveAlignmentPoint at h
  cases hws : tp.sourcePhrase.GetWord pt.1 with
  | none => simp [hws] at h
  | some ws =>
    cases hwt : tp.words.GetWord pt.2 with
    | none =>
      simp only [hws, hwt] at h
      split at h <;> simp at h
    | some wt =>
      refine ⟨ws, wt, rfl, rfl, ?_⟩
      simp only [hws, hwt] at h
      split at h
      · simp at h
      · split at h
        · simp at h
        · split at h
          · simp at h
          · simp at h
          · simp only [Except.ok.injEq, Option.some.injEq, Prod.mk.injEq] at h
            exact ⟨h.1.symm, h.2.symm⟩

/-- The result of `Evaluate` on an alignment of one point that passes the
non-terminal and punctuation tests, in simple mode without context modes. -/
theorem Evaluate_single_simple (F : WordTranslationFeature) (input : Sentence)
    (cur_hypo : Hypothesis) (pt : Nat × Nat) (ws wt : Word)
    (acc : ScoreComponentCollection)
    (hal : cur_hypo.currTargetPhrase.alignmentInfo.points = [pt])
    (hws : cur_hypo.currTargetPhrase.sourcePhrase.GetWord pt.1 = some ws)
    (hwt : cur_hypo.currTargetPhrase.words.GetWord pt.2 = some wt)
    (hs : (F.m_factorTypeSource == 0 && ws.isNonTerminal) = false)
    (ht : (F.m_factorTypeSource == 0 && wt.isNonTerminal) = false)
    (hp : punctuationSkip F (ws.factorString F.m_factorTypeSource)
      (wt.factorString F.m_factorTypeTarget) = .ok false)
    (hsimple : F.m_simple = true) (hsc : F.m_sourceContext = false)
    (htc : F.m_targetContext = false) :
    Evaluate F input cur_hypo acc =
      .ok (acc ++ [("wt_" ++ restrictWord F.m_unrestricted F.m_vocabSource
                      (ws.factorString F.m_factorTypeSource) ++ "~" ++
                    restrictWord F.m_unrestricted F.m_vocabTarget
                      (wt.factorString F.m_factorTypeTarget), 1)]) := by
  simp only [Evaluate, hal, forEach, EvaluatePoint, featureSteps,
    resolveAlignmentPoint_of_words F cur_hypo.currTargetPhrase pt ws wt hws hwt hs ht, hp,
    simpleStep, hsimple, hsc, htc, SparsePlusEquals]
  rfl

theorem flatten_map_ite {α β : Type} (c : α → Bool) (f : α → β) (xs : List α) :
    (xs.map (fun x => if c x then [f x] else [])).flatten = (xs.filter c).map f := by
  induction xs with
  | nil => rfl
  | cons x xs ih =>
    cases hc : c x <;> simp [List.filter, hc, ih]

theorem filter_ne_range_of_le (n g : Nat) (h : n ≤ g) :
    (List.range n).filter (fun p => decide (p ≠ g)) = List.range n := by
  apply List.filter_eq_self.mpr
  intro p hp
  have := List.mem_range.mp hp
  simp; omega

theorem length_filter_ne_range (n g : Nat) (h : g < n) :
    ((List.range n).filter (fun p => decide (p ≠ g))).length = n - 1 := by
  induction n with
  | zero => omega
  | succ n ih =>
    rw [List.range_succ, List.filter_append, List.length_append]
    by_cases hg : g < n
    · have hne : decide (n ≠ g) = true := by simp; omega
      rw [ih hg, List.filter_cons, hne]
      simp only [if_true, List.filter_nil, List.length_singleton]
      omega
    · have hge : g = n := by omega
      subst hge
      have hne : decide (g ≠ g) = false := by simp
      rw [filter_ne_range_of_le g g (Nat.le_refl g), List.filter_cons, hne]
      simp

/-- One round of the source-context loop without punctuation filtering. -/
theorem sourceContextIteration_noPunct (F : WordTranslationFeature) (input : Sentence)
    (g : Nat) (s t : String) (p : Nat) (acc : ScoreComponentCollection)
    (hp : F.m_ignorePunctuation = false) (hlt : p < input.length) :
    sourceContextIteration F input g s t p acc =
      .ok (acc ++
        if decide (p ≠ g) &&
            (F.m_unrestricted || decide (triggerAt input F.m_factorTypeSource p ∈ F.m_vocabSource))
        then [sourceContextFeature input F.m_factorTypeSource g s t p]
        else []) := by
  obtain ⟨w, hw⟩ : ∃ w, Phrase.GetWord input p = some w :=
    ⟨input.get ⟨p, hlt⟩, by simp [Phrase.GetWord, List.get?_eq_get hlt]⟩
  unfold sourceContextIteration
  by_cases hpg : p = g
  · simp [hpg]
  · simp only [hpg, if_false, hw, triggerPunctuationSkip, hp, triggerAt, sourceContextFeature]
    cases hu : F.m_unrestricted with
    | true => by_cases hlt2 : p < g <;> simp [hlt2, hpg, SparsePlusEquals]
    | false =>
      by_cases hm : w.factorString F.m_factorTypeSource ∈ F.m_vocabSource
      · by_cases hlt2 : p < g <;> simp [hlt2, hm, hpg, SparsePlusEquals]
      · simp [hm]

/-- The source-context step without punctuation filtering: the boundary
feature, then one context feature for every position other than `g` whose
word passes the vocabulary test. -/
theorem sourceContextStep_noPunct (F : WordTranslationFeature) (input : Sentence)
    (g : Nat) (s t : String) (acc : ScoreComponentCollection)
    (hp : F.m_ignorePunctuation = false) :
    sourceContextStep F input g s t acc =
      .ok (acc ++ sourceBoundary g s t ++
        ((List.range input.length).filter (fun p => decide (p ≠ g) &&
            (F.m_unrestricted ||
              decide (triggerAt input F.m_factorTypeSource p ∈ F.m_vocabSource)))).map
          (sourceContextFeature input F.m_factorTypeSource g s t)) := by
  unfold sourceContextStep
  rw [forEach_emit _ (fun p => if decide (p ≠ g) &&
      (F.m_unrestricted || decide (triggerAt input F.m_factorTypeSource p ∈ F.m_vocabSource))
      then [sourceContextFeature input F.m_factorTypeSource g s t p] else [])]
  · rw [flatten_map_ite]
    congr 2
    unfold sourceBoundary SparsePlusEquals
    split <;> simp
  · intro p hmem a
    exact sourceContextIteration_noPunct F input g s t p a hp
      (List.mem_range.mp (by simpa [Phrase.GetSize] using hmem))

/-- One round of the target-context loop without punctuation filtering. -/
theorem targetContextIteration_noPunct (F : WordTranslationFeature) (cur_hypo : Hypothesis)
    (s t : String) (p : Nat) (acc : ScoreComponentCollection)
    (hp : F.m_ignorePunctuation = false) :
    targetContextIteration F cur_hypo s t p acc =
      .ok (acc ++
        if F.m_unrestricted ||
            decide ((cur_hypo.GetWord p).factorString F.m_factorTypeTarget ∈ F.m_vocabTarget)
        then [targetContextFeature cur_hypo F.m_factorTypeTarget s t p]
        else []) := by
  unfold targetContextIteration
  simp only [triggerPunctuationSkip, hp, targetContextFeature]
  cases hu : F.m_unrestricted with
  | true => simp [SparsePlusEquals]
  | false =>
    by_cases hm : (cur_hypo.GetWord p).factorString F.m_factorTypeTarget ∈ F.m_vocabTarget
    · simp [hm, SparsePlusEquals]
    · simp [hm]

/-- The target-context step without punctuation filtering: the boundary
feature, then one context feature for every earlier position whose word passes
the vocabulary test. -/
theorem targetContextStep_noPunct (F : WordTranslationFeature) (cur_hypo : Hypothesis)
    (g : Nat) (s t : String) (acc : ScoreComponentCollection)
    (hp : F.m_ignorePunctuation = false) :
    targetContextStep F cur_hypo g s t acc =
      .ok (acc ++ targetBoundary g s t ++
        ((List.range g).filter (fun p => F.m_unrestricted ||
            decide ((cur_hypo.GetWord p).factorString F.m_factorTypeTarget ∈
              F.m_vocabTarget))).map
          (targetContextFeature cur_hypo F.m_factorTypeTarget s t)) := by
  unfold targetContextStep
  rw [forEach_emit _ (fun p => if F.m_unrestricted ||
      decide ((cur_hypo.GetWord p).factorString F.m_factorTypeTarget ∈ F.m_vocabTarget)
      then [targetContextFeature cur_hypo F.m_factorTypeTarget s t p] else [])]
  · rw [flatten_map_ite]
    congr 2
    unfold targetBoundary SparsePlusEquals
    split <;> simp
  · intro p _ a
    exact targetContextIteration_noPunct F cur_hypo s t p a hp

/-- How the body of the loop of `Evaluate` continues once lines 62-88 have
produced the pair of words. -/
theorem EvaluatePoint_of_resolved (F : WordTranslationFeature) (input : Sentence)
    (cur_hypo : Hypothesis) (pt : Nat × Nat) (s t : String) (acc : ScoreComponentCollection)
    (h : resolveAlignmentPoint F cur_hypo.currTargetPhrase pt = .ok (some (s, t))) :
    EvaluatePoint F input cur_hypo pt acc =
      match (if F.m_sourceContext then
          sourceContextStep F input (cur_hypo.currSourceWordsRangeStart + pt.1) s t
            (simpleStep F s t acc)
        else .ok (simpleStep F s t acc)) with
      | .error e => .error e
      | .ok acc2 =>
        if F.m_targetContext then
          targetContextStep F cur_hypo (cur_hypo.currTargetWordsRangeStart + pt.2) s t acc2
        else .ok acc2 := by
  simp only [EvaluatePoint, h, featureSteps]

theorem data_nil_of_eq_empty (w : String) (h : w = "") : w.data = [] := by
  subst h; rfl

theorem eq_empty_of_data_nil (w : String) (h : w.data = []) : w = "" :=
  String.ext h

/-- Every word is empty, starts with a punctuation character, or starts with
another character. -/
theorem word_cases (F : WordTranslationFeature) (w : String) :
    w = "" ∨ startsWithPunctuation F w ∨ startsWithOther F w := by
  cases hd : w.data with
  | nil => exact Or.inl (eq_empty_of_data_nil w hd)
  | cons c rest =>
    by_cases hc : c ∈ F.m_punctuationHash
    · exact Or.inr (Or.inl ⟨c, rest, hd, hc⟩)
    · exact Or.inr (Or.inr ⟨c, rest, hd, hc⟩)

theorem punctuationSkip_source_empty (F : WordTranslationFeature) (s t : String)
    (hip : F.m_ignorePunctuation = true) (hs : s = "") :
    punctuationSkip F s t = .error .stringOutOfRange := by
  simp [punctuationSkip, hip, punctuationTest_empty F s (data_nil_of_eq_empty s hs)]

theorem punctuationSkip_source_punctuation (F : WordTranslationFeature) (s t : String)
    (hip : F.m_ignorePunctuation = true) (hs : startsWithPunctuation F s) :
    punctuationSkip F s t = .ok true := by
  simp [punctuationSkip, hip, punctuationTest_punctuation F s hs]

theorem punctuationSkip_target_empty (F : WordTranslationFeature) (s t : String)
    (hip : F.m_ignorePunctuation = true) (hs : startsWithOther F s) (ht : t = "") :
    punctuationSkip F s t = .error .stringOutOfRange := by
  simp [punctuationSkip, hip, punctuationTest_other F s hs,
    punctuationTest_empty F t (data_nil_of_eq_empty t ht)]

theorem punctuationSkip_target_punctuation (F : WordTranslationFeature) (s t : String)
    (hip : F.m_ignorePunctuation = true) (hs : startsWithOther F s)
    (ht : startsWithPunctuation F t) :
    punctuationSkip F s t = .ok true := by
  simp [punctuationSkip, hip, punctuationTest_other F s hs, punctuationTest_punctuation F t ht]

/-- With punctuation filtering on, a point one of whose words starts with a
punctuation character is skipped by lines 62-88, unless its source word is
empty, in which case `at(0)` throws. -/
theorem resolveAlignmentPoint_punctuation (F : WordTranslationFeature) (tp : TargetPhrase)
    (pt : Nat × Nat) (ws wt : Word)
    (hip : F.m_ignorePunctuation = true)
    (hws : tp.sourcePhrase.GetWord pt.1 = some ws) (hwt : tp.words.GetWord pt.2 = some wt)
    (hpunct : startsWithPunctuation F (ws.factorString F.m_factorTypeSource) ∨
      startsWithPunctuation F (wt.factorString F.m_factorTypeTarget)) :
    resolveAlignmentPoint F tp pt = .ok none ∨
    (ws.factorString F.m_factorTypeSource = "" ∧
      resolveAlignmentPoint F tp pt = .error .stringOutOfRange) := by
  cases hs : (F.m_factorTypeSource == 0 && ws.isNonTerminal) with
  | true => left; simp only [resolveAlignmentPoint, hws, hs, if_true]
  | false =>
    cases ht : (F.m_factorTypeSource == 0 && wt.isNonTerminal) with
    | true =>
      left
      simp only [resolveAlignmentPoint, hws, hwt, hs, ht, if_true, Bool.false_eq_true, if_false]
    | false =>
      rw [resolveAlignmentPoint_of_words F tp pt ws wt hws hwt hs ht]
      rcases word_cases F (ws.factorString F.m_factorTypeSource) with he | hsp | hso
      · right
        exact ⟨he, by rw [punctuationSkip_source_empty F _ _ hip he]⟩
      · left
        rw [punctuationSkip_source_punctuation F _ _ hip hsp]
      · left
        rcases hpunct with hsp | htp
        · obtain ⟨c, rest, hd, hc⟩ := hsp
          obtain ⟨c2, rest2, hd2, hc2⟩ := hso
          rw [hd] at hd2
          cases hd2
          exact absurd hc hc2
        · rw [punctuationSkip_target_punctuation F _ _ hip hso htp]

/-- With punctuation filtering on, lines 71-81 throw on a point that reads an
empty word. -/
theorem resolveAlignmentPoint_readsEmptyWord (F : WordTranslationFeature) (tp : TargetPhrase)
    (pt : Nat × Nat) (hip : F.m_ignorePunctuation = true) (h : readsEmptyWord F tp pt) :
    resolveAlignmentPoint F tp pt = .error .stringOutOfRange := by
  obtain ⟨ws, wt, hws, hwt, hs, ht, hempty⟩ := h
  rw [resolveAlignmentPoint_of_words F tp pt ws wt hws hwt hs ht]
  rcases hempty with he | ⟨hso, hte⟩
  · rw [punctuationSkip_source_empty F _ _ hip he]
  · rw [punctuationSkip_target_empty F _ _ hip hso hte]

theorem EvaluatePoint_of_skipped (F : WordTranslationFeature) (input : Sentence)
    (cur_hypo : Hypothesis) (pt : Nat × Nat) (acc : ScoreComponentCollection)
    (h : resolveAlignmentPoint F cur_hypo.currTargetPhrase pt = .ok none) :
    EvaluatePoint F input cur_hypo pt acc = .ok acc := by
  simp only [EvaluatePoint, h]

theorem EvaluatePoint_of_error (F : WordTranslationFeature) (input : Sentence)
    (cur_hypo : Hypothesis) (pt : Nat × Nat) (acc : ScoreComponentCollection) (e : Failure)
    (h : resolveAlignmentPoint F cur_hypo.currTargetPhrase pt = .error e) :
    EvaluatePoint F input cur_hypo pt acc = .error e := by
  simp only [EvaluatePoint, h]

theorem EvaluateChartPoint_of_skipped (F : WordTranslationFeature)
    (cur_hypo : ChartHypothesis) (pt : Nat × Nat) (acc : ScoreComponentCollection)
    (h : resolveAlignmentPoint F cur_hypo.currTargetPhrase pt = .ok none) :
    EvaluateChartPoint F cur_hypo pt acc = .ok acc := by
  simp only [EvaluateChartPoint, h]

theorem EvaluateChartPoint_of_error (F : WordTranslationFeature)
    (cur_hypo : ChartHypothesis) (pt : Nat × Nat) (acc : ScoreComponentCollection) (e : Failure)
    (h : resolveAlignmentPoint F cur_hypo.currTargetPhrase pt = .error e) :
    EvaluateChartPoint F cur_hypo pt acc = .error e := by
  simp only [EvaluateChartPoint, h]

theorem EvaluateChartPoint_of_resolved (F : WordTranslationFeature)
    (cur_hypo : ChartHypothesis) (pt : Nat × Nat) (s t : String)
    (acc : ScoreComponentCollection)
    (h : resolveAlignmentPoint F cur_hypo.currTargetPhrase pt = .ok (some (s, t))) :
    EvaluateChartPoint F cur_hypo pt acc = .ok (simpleStep F s t acc) := by
  simp only [EvaluateChartPoint, h]

/-- After the `getline` loop the set holds what it held before and the lines read. -/
theorem mem_insertLines (lines vocab : List String) (w : String) :
    w ∈ insertLines lines vocab ↔ w ∈ vocab ∨ w ∈ lines := by
  unfold insertLines
  induction lines generalizing vocab with
  | nil => simp
  | cons l ls ih =>
    rw [List.foldl_cons, ih, List.mem_insert_iff, List.mem_cons]
    tauto

theorem lt_length_of_GetWord (ws : Phrase) (p : Nat) (w : Word)
    (h : Phrase.GetWord ws p = some w) : p < ws.length := by
  unfold Phrase.GetWord at h
  exact (List.get?_eq_some.mp h).1

/-- With punctuation filtering on, the source-context loop throws on an empty
context word. -/
theorem sourceContextIteration_empty (F : WordTranslationFeature) (input : Sentence)
    (g : Nat) (s t : String) (p : Nat) (w : Word) (acc : ScoreComponentCollection)
    (hip : F.m_ignorePunctuation = true) (hpg : p ≠ g)
    (hw : Phrase.GetWord input p = some w) (he : w.factorString F.m_factorTypeSource = "") :
    sourceContextIteration F input g s t p acc = .error .stringOutOfRange := by
  simp only [sourceContextIteration, hpg, if_false, hw, triggerPunctuationSkip, hip, if_true,
    punctuationTest_empty F _ (data_nil_of_eq_empty _ he)]

theorem sourceContextStep_empty (F : WordTranslationFeature) (input : Sentence)
    (g : Nat) (s t : String) (p : Nat) (w : Word) (acc : ScoreComponentCollection)
    (hip : F.m_ignorePunctuation = true) (hpg : p ≠ g)
    (hw : Phrase.GetWord input p = some w) (he : w.factorString F.m_factorTypeSource = "") :
    ∃ e, sourceContextStep F input g s t acc = .error e := by
  unfold sourceContextStep
  exact forEach_error_of_mem _ _ p
    (List.mem_range.mpr (lt_length_of_GetWord input p w hw))
    (fun a => ⟨_, sourceContextIteration_empty F input g s t p w a hip hpg hw he⟩) _

/-- With punctuation filtering on, the target-context loop throws on an empty
context word. -/
theorem targetContextIteration_empty (F : WordTranslationFeature) (cur_hypo : Hypothesis)
    (s t : String) (p : Nat) (acc : ScoreComponentCollection)
    (hip : F.m_ignorePunctuation = true)
    (he : (cur_hypo.GetWord p).factorString F.m_factorTypeTarget = "") :
    targetContextIteration F cur_hypo s t p acc = .error .stringOutOfRange := by
  simp only [targetContextIteration, triggerPunctuationSkip, hip, if_true,
    punctuationTest_empty F _ (data_nil_of_eq_empty _ he)]

theorem targetContextStep_empty (F : WordTranslationFeature) (cur_hypo : Hypothesis)
    (g : Nat) (s t : String) (p : Nat) (acc : ScoreComponentCollection)
    (hip : F.m_ignorePunctuation = true) (hpg : p < g)
    (he : (cur_hypo.GetWord p).factorString F.m_factorTypeTarget = "") :
    ∃ e, targetContextStep F cur_hypo g s t acc = .error e := by
  unfold targetContextStep
  exact forEach_error_of_mem _ _ p (List.mem_range.mpr hpg)
    (fun a => ⟨_, targetContextIteration_empty F cur_hypo s t p a hip he⟩) _

theorem EvaluatePoint_source_context_error (F : WordTranslationFeature) (input : Sentence)
    (cur_hypo : Hypothesis) (pt : Nat × Nat) (s t : String) (acc : ScoreComponentCollection)
    (hres : resolveAlignmentPoint F cur_hypo.currTargetPhrase pt = .ok (some (s, t)))
    (hsc : F.m_sourceContext = true)
    (h : ∀ a, ∃ e, sourceContextStep F input (cur_hypo.currSourceWordsRangeStart + pt.1)
      s t a = .error e) :
    ∃ e, EvaluatePoint F input cur_hypo pt acc = .error e := by
  obtain ⟨e, he⟩ := h (simpleStep F s t acc)
  exact ⟨e, by simp only [EvaluatePoint_of_resolved F input cur_hypo pt s t acc hres, hsc,
    if_true, he]⟩

theorem EvaluatePoint_target_context_error (F : WordTranslationFeature) (input : Sentence)
    (cur_hypo : Hypothesis) (pt : Nat × Nat) (s t : String) (acc : ScoreComponentCollection)
    (hres : resolveAlignmentPoint F cur_hypo.currTargetPhrase pt = .ok (some (s, t)))
    (htc : F.m_targetContext = true)
    (h : ∀ a, ∃ e, targetContextStep F cur_hypo (cur_hypo.currTargetWordsRangeStart + pt.2)
      s t a = .error e) :
    ∃ e, EvaluatePoint F input cur_hypo pt acc = .error e := by
  rw [EvaluatePoint_of_resolved F input cur_hypo pt s t acc hres]
  cases hsrc : (if F.m_sourceContext then
      sourceContextStep F input (cur_hypo.currSourceWordsRangeStart + pt.1) s t
        (simpleStep F s t acc)
    else .ok (simpleStep F s t acc)) with
  | error e => exact ⟨e, rfl⟩
  | ok acc2 =>
    obtain ⟨e, he⟩ := h acc2
    exact ⟨e, by simp only [htc, if_true, he]⟩

/-- A loop each round of which either leaves the accumulator alone or appends
one entry determined by the element appends, when it ends normally, the
entries of a sublist of the elements. -/
theorem forEach_ok_sublist {α : Type}
    (body : α → ScoreComponentCollection → Except Failure ScoreComponentCollection)
    (P : α → Prop) (f : α → String × Int) (xs : List α)
    (h : ∀ x ∈ xs, ∀ a a', body x a = .ok a' → a' = a ∨ (P x ∧ a' = a ++ [f x]))
    (a a' : ScoreComponentCollection) (hr : forEach body xs a = .ok a') :
    ∃ ys : List α, ys.Sublist xs ∧ (∀ y ∈ ys, P y) ∧ a' = a ++ ys.map f := by
  induction xs generalizing a with
  | nil =>
    simp only [forEach, Except.ok.injEq] at hr
    exact ⟨[], List.Sublist.refl _, by simp, by simp [hr]⟩
  | cons x xs ih =>
    simp only [forEach] at hr
    cases hb : body x a with
    | error e => simp [hb] at hr
    | ok a1 =>
      simp only [hb] at hr
      obtain ⟨ys, hsub, hP, hys⟩ :=
        ih (fun y hy => h y (List.mem_cons_of_mem x hy)) a1 hr
      rcases h x (List.mem_cons_self x xs) a a1 hb with h1 | ⟨hPx, h1⟩
      · exact ⟨ys, List.Sublist.cons x hsub, hP, by rw [hys, h1]⟩
      · refine ⟨x :: ys, List.Sublist.cons₂ x hsub, ?_, ?_⟩
        · intro y hy
          rcases List.mem_cons.mp hy with rfl | hy
          · exact hPx
          · exact hP y hy
        · rw [hys, h1]; simp

theorem triggerAt_of_GetWord (ws : Phrase) (ft p : Nat) (w : Word)
    (h : Phrase.GetWord ws p = some w) : triggerAt ws ft p = w.factorString ft := by
  simp only [triggerAt, h]

/-- One round of the loop of `EvaluateChart` leaves the accumulator alone or,
in simple mode, appends the simple feature of the point. -/
theorem EvaluateChartPoint_shape (F : WordTranslationFeature) (chart : ChartHypothesis)
    (pt : Nat × Nat) (a a' : ScoreComponentCollection)
    (h : EvaluateChartPoint F chart pt a = .ok a') :
    a' = a ∨ (F.m_simple = true ∧ a' = a ++ [simpleFeature F chart.currTargetPhrase pt]) := by
  cases hres : resolveAlignmentPoint F chart.currTargetPhrase pt with
  | error e => rw [EvaluateChartPoint_of_error F chart pt a e hres] at h; cases h
  | ok r =>
    cases r with
    | none =>
      rw [EvaluateChartPoint_of_skipped F chart pt a hres] at h
      cases h
      exact Or.inl rfl
    | some st =>
      obtain ⟨s, t⟩ := st
      rw [EvaluateChartPoint_of_resolved F chart pt s t a hres] at h
      simp only [Except.ok.injEq] at h
      obtain ⟨ws, wt, hws, hwt, hs, ht⟩ :=
        resolveAlignmentPoint_some F chart.currTargetPhrase pt s t hres
      cases hsimple : F.m_simple with
      | false =>
        left
        rw [← h]
        simp [simpleStep, hsimple]
      | true =>
        right
        refine ⟨rfl, ?_⟩
        rw [← h]
        simp only [simpleStep, hsimple, if_true, SparsePlusEquals, simpleFeature,
          triggerAt_of_GetWord _ _ _ ws hws, triggerAt_of_GetWord _ _ _ wt hwt, hs, ht]

/-- One round of the source-context loop leaves the accumulator alone or, for
a position other than the point's own, appends the context feature of the
position. -/
theorem sourceContextIteration_shape (F : WordTranslationFeature) (input : Sentence)
    (g : Nat) (s t : String) (p : Nat) (a a' : ScoreComponentCollection)
    (h : sourceContextIteration F input g s t p a = .ok a') :
    a' = a ∨ (p ≠ g ∧ a' = a ++ [sourceContextFeature input F.m_factorTypeSource g s t p]) := by
  unfold sourceContextIteration at h
  by_cases hpg : p = g
  · simp only [hpg, if_true, Except.ok.injEq] at h
    exact Or.inl h.symm
  · simp only [hpg, if_false] at h
    cases hw : Phrase.GetWord input p with
    | none => simp [hw] at h
    | some w =>
      simp only [hw] at h
      cases hskip : triggerPunctuationSkip F (w.factorString F.m_factorTypeSource) with
      | error e => simp [hskip] at h
      | ok b =>
        cases b with
        | true =>
          simp only [hskip, Except.ok.injEq] at h
          exact Or.inl h.symm
        | false =>
          simp only [hskip] at h
          by_cases hlt : p < g <;>
            by_cases hm : w.factorString F.m_factorTypeSource ∈ F.m_vocabSource <;>
            cases hu : F.m_unrestricted <;>
            simp [hu, hm, hlt, SparsePlusEquals] at h <;>
            simp [← h, hpg, sourceContextFeature, hlt, triggerAt_of_GetWord _ _ _ w hw]

/-- With both context modes off, the body of the loop of `Evaluate` does what
the body of the loop of `EvaluateChart` does on the same target phrase words:
lines 62-100 and lines 202-240 are the same text. -/
theorem EvaluatePoint_eq_EvaluateChartPoint (F : WordTranslationFeature) (input : Sentence)
    (cur_hypo : Hypothesis) (chart : ChartHypothesis) (pt : Nat × Nat)
    (acc : ScoreComponentCollection)
    (hsc : F.m_sourceContext = false) (htc : F.m_targetContext = false)
    (hw : chart.currTargetPhrase.words = cur_hypo.currTargetPhrase.words)
    (hsp : chart.currTargetPhrase.sourcePhrase = cur_hypo.currTargetPhrase.sourcePhrase) :
    EvaluatePoint F input cur_hypo pt acc = EvaluateChartPoint F chart pt acc := by
  have hres : resolveAlignmentPoint F chart.currTargetPhrase pt =
      resolveAlignmentPoint F cur_hypo.currTargetPhrase pt := by
    simp only [resolveAlignmentPoint, hw, hsp]
  simp only [EvaluatePoint, EvaluateChartPoint, featureSteps, hres, hsc, htc]
  cases resolveAlignmentPoint F cur_hypo.currTargetPhrase pt with
  | error e => rfl
  | ok r =>
    cases r with
    | none => rfl
    | some st => rfl

theorem EmitsOnes_ok_same : EmitsOnes (fun a => .ok a) :=
  Or.inr ⟨[], by simp, by simp⟩

theorem EmitsOnes_error (e : Failure) : EmitsOnes (fun _ => .error e) :=
  Or.inl ⟨e, fun _ => rfl⟩

theorem EmitsOnes_SparsePlusEquals (name : String) :
    EmitsOnes (fun a => .ok (SparsePlusEquals name 1 a)) :=
  Or.inr ⟨[(name, 1)], by simp, fun _ => rfl⟩

/-- Two such computations in sequence make one. -/
theorem EmitsOnes_seq
    (f g : ScoreComponentCollection → Except Failure ScoreComponentCollection)
    (hf : EmitsOnes f) (hg : EmitsOnes g) :
    EmitsOnes (fun a => match f a with
      | .error e => .error e
      | .ok a' => g a') := by
  rcases hf with ⟨e, he⟩ | ⟨l, hl, hfl⟩
  · exact Or.inl ⟨e, fun a => by simp only [he]⟩
  · rcases hg with ⟨e, he⟩ | ⟨m, hm, hgm⟩
    · exact Or.inl ⟨e, fun a => by simp only [hfl, he]⟩
    · refine Or.inr ⟨l ++ m, ?_, fun a => by simp only [hfl, hgm, List.append_assoc]⟩
      intro x hx
      rcases List.mem_append.mp hx with h | h
      · exact hl x h
      · exact hm x h

/-- A loop of such computations is one. -/
theorem EmitsOnes_forEach {α : Type}
    (body : α → ScoreComponentCollection → Except Failure ScoreComponentCollection)
    (xs : List α) (h : ∀ x ∈ xs, EmitsOnes (body x)) : EmitsOnes (forEach body xs) := by
  induction xs with
  | nil => exact Or.inr ⟨[], by simp, fun a => by simp [forEach]⟩
  | cons x xs ih =>
    have hseq := EmitsOnes_seq (body x) (forEach body xs) (h x (List.mem_cons_self x xs))
      (ih (fun y hy => h y (List.mem_cons_of_mem x hy)))
    have heq : forEach body (x :: xs) = (fun a => match body x a with
        | .error e => .error e
        | .ok a' => forEach body xs a') := by
      funext a
      simp only [forEach]
      cases body x a <;> rfl
    rw [heq]
    exact hseq

theorem EmitsOnes_congr
    (f g : ScoreComponentCollection → Except Failure ScoreComponentCollection)
    (h : ∀ a, f a = g a) (hg : EmitsOnes g) : EmitsOnes f := by
  have : f = g := funext h
  rw [this]; exact hg

theorem EmitsOnes_ite (c : Prop) [Decidable c]
    (f g : ScoreComponentCollection → Except Failure ScoreComponentCollection)
    (hf : EmitsOnes f) (hg : EmitsOnes g) : EmitsOnes (fun a => if c then f a else g a) := by
  by_cases hc : c
  · simp only [hc, if_true]; exact hf
  · simp only [hc, if_false]; exact hg

theorem EmitsOnes_sourceContextIteration (F : WordTranslationFeature) (input : Sentence)
    (g : Nat) (s t : String) (p : Nat) :
    EmitsOnes (sourceContextIteration F input g s t p) := by
  unfold sourceContextIteration
  by_cases hpg : p = g
  · simp only [hpg, if_true]; exact EmitsOnes_ok_same
  · simp only [hpg, if_false]
    cases Phrase.GetWord input p with
    | none => exact EmitsOnes_error _
    | some w =>
      simp only []
      cases triggerPunctuationSkip F (w.factorString F.m_factorTypeSource) with
      | error e => exact EmitsOnes_error _
      | ok b =>
        cases b with
        | true => exact EmitsOnes_ok_same
        | false =>
          simp only []
          apply EmitsOnes_ite
          · apply EmitsOnes_ite
            · exact EmitsOnes_SparsePlusEquals _
            · exact EmitsOnes_SparsePlusEquals _
          · exact EmitsOnes_ok_same

theorem EmitsOnes_targetContextIteration (F : WordTranslationFeature) (cur_hypo : Hypothesis)
    (s t : String) (p : Nat) :
    EmitsOnes (targetContextIteration F cur_hypo s t p) := by
  unfold targetContextIteration
  simp only []
  cases triggerPunctuationSkip F
      ((cur_hypo.GetWord p).factorString F.m_factorTypeTarget) with
  | error e => exact EmitsOnes_error _
  | ok b =>
    cases b with
    | true => exact EmitsOnes_ok_same
    | false =>
      simp only []
      apply EmitsOnes_ite
      · exact EmitsOnes_SparsePlusEquals _
      · exact EmitsOnes_ok_same

theorem EmitsOnes_sourceContextStep (F : WordTranslationFeature) (input : Sentence)
    (g : Nat) (s t : String) : EmitsOnes (sourceContextStep F input g s t) := by
  have hfirst : EmitsOnes (fun a => .ok (if g = 0 then
      SparsePlusEquals ("wt_" ++ "<s>," ++ s ++ "~" ++ t) 1 a else a)) := by
    by_cases hg : g = 0
    · simp only [hg, if_true]; exact EmitsOnes_SparsePlusEquals _
    · simp only [hg, if_false]; exact EmitsOnes_ok_same
  exact EmitsOnes_seq _ (forEach (sourceContextIteration F input g s t)
    (List.range (Phrase.GetSize input))) hfirst
    (EmitsOnes_forEach _ _ (fun p _ => EmitsOnes_sourceContextIteration F input g s t p))

theorem EmitsOnes_targetContextStep (F : WordTranslationFeature) (cur_hypo : Hypothesis)
    (g : Nat) (s t : String) : EmitsOnes (targetContextStep F cur_hypo g s t) := by
  have hfirst : EmitsOnes (fun a => .ok (if g = 0 then
      SparsePlusEquals ("wt_" ++ s ++ "~" ++ "<s>," ++ t) 1 a else a)) := by
    by_cases hg : g = 0
    · simp only [hg, if_true]; exact EmitsOnes_SparsePlusEquals _
    · simp only [hg, if_false]; exact EmitsOnes_ok_same
  exact EmitsOnes_seq _ (forEach (targetContextIteration F cur_hypo s t) (List.range g)) hfirst
    (EmitsOnes_forEach _ _ (fun p _ => EmitsOnes_targetContextIteration F cur_hypo s t p))

theorem EmitsOnes_simpleStep (F : WordTranslationFeature) (s t : String) :
    EmitsOnes (fun a => .ok (simpleStep F s t a)) := by
  unfold simpleStep
  cases F.m_simple with
  | true => exact EmitsOnes_SparsePlusEquals _
  | false => exact EmitsOnes_ok_same

theorem EmitsOnes_EvaluatePoint (F : WordTranslationFeature) (input : Sentence)
    (cur_hypo : Hypothesis) (pt : Nat × Nat) : EmitsOnes (EvaluatePoint F input cur_hypo pt) := by
  cases hres : resolveAlignmentPoint F cur_hypo.currTargetPhrase pt with
  | error e =>
    have heq : EvaluatePoint F input cur_hypo pt = fun _ => .error e := by
      funext a; exact EvaluatePoint_of_error F input cur_hypo pt a e hres
    rw [heq]; exact EmitsOnes_error e
  | ok r =>
    cases r with
    | none =>
      have heq : EvaluatePoint F input cur_hypo pt = fun a => .ok a := by
        funext a; exact EvaluatePoint_of_skipped F input cur_hypo pt a hres
      rw [heq]; exact EmitsOnes_ok_same
    | some st =>
      obtain ⟨s, t⟩ := st
      have hsource : EmitsOnes (fun a => if F.m_sourceContext then
          sourceContextStep F input (cur_hypo.currSourceWordsRangeStart + pt.1) s t a
          else .ok a) :=
        EmitsOnes_ite _ _ _ (EmitsOnes_sourceContextStep F input _ s t) EmitsOnes_ok_same
      have htarget : EmitsOnes (fun a => if F.m_targetContext then
          targetContextStep F cur_hypo (cur_hypo.currTargetWordsRangeStart + pt.2) s t a
          else .ok a) :=
        EmitsOnes_ite _ _ _ (EmitsOnes_targetContextStep F cur_hypo _ s t) EmitsOnes_ok_same
      have hall := EmitsOnes_seq _ _ (EmitsOnes_seq _ _ (EmitsOnes_simpleStep F s t) hsource)
        htarget
      refine EmitsOnes_congr _ _ (fun a => ?_) hall
      rw [EvaluatePoint_of_resolved F input cur_hypo pt s t a hres]

/-- The function `Evaluate` either fails whatever the accumulator is, or appends
to every accumulator the same entries, all of amount 1. -/
theorem EmitsOnes_Evaluate (F : WordTranslationFeature) (input : Sentence)
    (cur_hypo : Hypothesis) : EmitsOnes (Evaluate F input cur_hypo) :=
  EmitsOnes_forEach _ _ (fun pt _ => EmitsOnes_EvaluatePoint F input cur_hypo pt)

theorem applyCalls_append {V : Type} (plus : V → Int → V) (values : String → V)
    (calls more : ScoreComponentCollection) :
    applyCalls plus values (calls ++ more) = applyCalls plus (applyCalls plus values calls) more := by
  simp only [applyCalls, List.foldl_append]

/-- Calls of amount 1 add 1 to the value of a name once for each call made for
that name. -/
theorem applyCalls_ones {V : Type} (plus : V → Int → V) (values : String → V)
    (l : ScoreComponentCollection) (name : String) (hl : ∀ x ∈ l, x.2 = 1) :
    applyCalls plus values l name =
      (fun v => plus v 1)^[(l.map Prod.fst).count name] (values name) := by
  induction l generalizing values with
  | nil => rfl
  | cons x xs ih =>
    have hx : x.2 = 1 := hl x (List.mem_cons_self x xs)
    have hstep : applyCalls plus values (x :: xs) =
        applyCalls plus (fun n => if n = x.1 then plus (values n) x.2 else values n) xs := rfl
    rw [hstep, ih _ (fun y hy => hl y (List.mem_cons_of_mem x hy))]
    by_cases hn : name = x.1
    · subst hn
      simp only [if_true, hx, List.map_cons, List.count_cons_self, Function.iterate_succ_apply]
    · have hne : x.1 ≠ name := fun h => hn h.symm
      simp [hn, hne, List.count_cons]

theorem flatten_map_singleton {α β : Type} (f : α → β) (xs : List α) :
    (xs.map (fun x => [f x])).flatten = xs.map f := by
  induction xs with
  | nil => rfl
  | cons x xs ih => simp [ih]

/-- Two lists split at a separator that occurs in neither left part have the
same parts. -/
theorem append_separator_inj (c : Char) (s1 s2 t1 t2 : List Char)
    (h1 : c ∉ s1) (h2 : c ∉ s2) (h : s1 ++ c :: t1 = s2 ++ c :: t2) :
    s1 = s2 ∧ t1 = t2 := by
  induction s1 generalizing s2 with
  | nil =>
    cases s2 with
    | nil =>
      simp only [List.nil_append, List.cons.injEq, true_and] at h
      exact ⟨rfl, h⟩
    | cons b s2 =>
      simp only [List.nil_append, List.cons_append, List.cons.injEq] at h
      exact absurd (h.1 ▸ List.mem_cons_self b s2) h2
  | cons a s1 ih =>
    cases s2 with
    | nil =>
      simp only [List.nil_append, List.cons_append, List.cons.injEq] at h
      exact absurd (h.1 ▸ List.mem_cons_self a s1) h1
    | cons b s2 =>
      simp only [List.cons_append, List.cons.injEq] at h
      obtain ⟨hs, ht⟩ := ih s2 (fun hm => h1 (List.mem_cons_of_mem a hm))
        (fun hm => h2 (List.mem_cons_of_mem b hm)) h.2
      exact ⟨by rw [h.1, hs], ht⟩

/-- The name of the simple feature determines the two words when the source
words hold no tilde. -/
theorem simple_name_inj (s1 t1 s2 t2 : String)
    (h1 : '~' ∉ s1.data) (h2 : '~' ∉ s2.data)
    (h : "wt_" ++ s1 ++ "~" ++ t1 = "wt_" ++ s2 ++ "~" ++ t2) : s1 = s2 ∧ t1 = t2 := by
  have hd := congrArg String.data h
  simp only [String.data_append, List.append_assoc] at hd
  have hd2 := List.append_cancel_left hd
  simp only [List.singleton_append] at hd2
  obtain ⟨hs, ht⟩ := append_separator_inj '~' s1.data s2.data t1.data t2.data h1 h2 hd2
  exact ⟨String.ext hs, String.ext ht⟩

/-- In restricted mode a word comes out of lines 83-88 as a member of the
vocabulary set or as "OTHER". -/
theorem restrictWord_restricted (vocab : List String) (word : String) :
    restrictWord false vocab word ∈ vocab ∨ restrictWord false vocab word = "OTHER" := by
  by_cases h : word ∈ vocab
  · left; rw [restrictWord_mem vocab word h]; exact h
  · right; exact restrictWord_not_mem vocab word h

theorem mem_restrictedSimpleNames (F : WordTranslationFeature) (s t : String)
    (hs : s ∈ F.m_vocabSource ∨ s = "OTHER") (ht : t ∈ F.m_vocabTarget ∨ t = "OTHER") :
    "wt_" ++ s ++ "~" ++ t ∈ restrictedSimpleNames F := by
  unfold restrictedSimpleNames
  refine Finset.mem_image.mpr ⟨(s, t), ?_, rfl⟩
  rw [Finset.mem_product]
  constructor
  · rcases hs with h | h
    · exact Finset.mem_insert_of_mem (List.mem_toFinset.mpr h)
    · rw [h]; exact Finset.mem_insert_self _ _
  · rcases ht with h | h
    · exact Finset.mem_insert_of_mem (List.mem_toFinset.mpr h)
    · rw [h]; exact Finset.mem_insert_self _ _

theorem card_restrictedSimpleNames (F : WordTranslationFeature) :
    (restrictedSimpleNames F).card ≤
      (F.m_vocabSource.toFinset.card + 1) * (F.m_vocabTarget.toFinset.card + 1) := by
  unfold restrictedSimpleNames
  refine le_trans Finset.card_image_le ?_
  rw [Finset.card_product]
  exact Nat.mul_le_mul (Finset.card_insert_le _ _) (Finset.card_insert_le _ _)

/-- A run of the loop body of `EvaluateChart` over a list of points appends,
when it ends normally, the simple features of a sublist of the points. -/
theorem forEach_EvaluateChartPoint_ok (F : WordTranslationFeature) (chart : ChartHypothesis)
    (points : List (Nat × Nat)) (acc acc' : ScoreComponentCollection)
    (h : forEach (EvaluateChartPoint F chart) points acc = .ok acc') :
    ∃ links : List (Nat × Nat), links.Sublist points ∧
      acc' = acc ++ links.map (simpleFeature F chart.currTargetPhrase) := by
  obtain ⟨links, hsub, _, hacc⟩ :=
    forEach_ok_sublist (EvaluateChartPoint F chart) (fun _ => F.m_simple = true)
      (simpleFeature F chart.currTargetPhrase) _
      (fun pt _ a a' hb => EvaluateChartPoint_shape F chart pt a a' hb) acc acc' h
  exact ⟨links, hsub, hacc⟩

theorem simpleFeature_mem_restrictedSimpleNames (F : WordTranslationFeature)
    (tp : TargetPhrase) (pt : Nat × Nat) (hr : F.m_unrestricted = false) :
    (simpleFeature F tp pt).1 ∈ restrictedSimpleNames F ∧ (simpleFeature F tp pt).2 = 1 := by
  refine ⟨?_, rfl⟩
  unfold simpleFeature
  rw [hr]
  exact mem_restrictedSimpleNames F _ _ (restrictWord_restricted _ _) (restrictWord_restricted _ _)

/-- With both context modes off `Evaluate` is the loop of `EvaluateChart` run
over the alignment points. -/
theorem Evaluate_eq_forEach_EvaluateChartPoint (F : WordTranslationFeature) (input : Sentence)
    (cur_hypo : Hypothesis) (acc : ScoreComponentCollection)
    (hsc : F.m_sourceContext = false) (htc : F.m_targetContext = false) :
    Evaluate F input cur_hypo acc =
      forEach (EvaluateChartPoint F (chartOf cur_hypo))
        cur_hypo.currTargetPhrase.alignmentInfo.points acc := by
  have hbody : EvaluatePoint F input cur_hypo = EvaluateChartPoint F (chartOf cur_hypo) := by
    funext pt a
    exact EvaluatePoint_eq_EvaluateChartPoint F input cur_hypo (chartOf cur_hypo) pt a hsc htc
      rfl rfl
  unfold Evaluate
  rw [hbody]

/-- The order of the keys spelled out: span length first, then the tag, then
the flag. -/
theorem crossingKey_lt_iff (a b : CrossingFeatureData) :
    a.lt b = true ↔
      a.m_length < b.m_length ∨
      (a.m_length = b.m_length ∧
        (a.m_nonTerm < b.m_nonTerm ∨
          (a.m_nonTerm = b.m_nonTerm ∧ a.m_isCrossing = false ∧ b.m_isCrossing = true))) := by
  unfold CrossingFeatureData.lt
  by_cases hl : a.m_length = b.m_length
  · by_cases hn : a.m_nonTerm = b.m_nonTerm
    · simp [hl, hn]
    · simp [hl, hn]
  · simp [hl]

theorem crossingKey_lt_irrefl (a : CrossingFeatureData) : a.lt a = false := by
  cases h : a.lt a with
  | false => rfl
  | true =>
    rw [crossingKey_lt_iff] at h
    rcases h with h | ⟨_, h | ⟨_, h1, h2⟩⟩
    · exact absurd h (lt_irrefl _)
    · exact absurd h (lt_irrefl _)
    · rw [h1] at h2; cases h2

theorem crossingKey_lt_trans (a b c : CrossingFeatureData)
    (hab : a.lt b = true) (hbc : b.lt c = true) : a.lt c = true := by
  rw [crossingKey_lt_iff] at hab hbc ⊢
  rcases hab with h1 | ⟨e1, h1 | ⟨n1, f1, g1⟩⟩
  · rcases hbc with h2 | ⟨e2, _⟩
    · exact Or.inl (lt_trans h1 h2)
    · exact Or.inl (e2 ▸ h1)
  · rcases hbc with h2 | ⟨e2, h2 | ⟨n2, _, _⟩⟩
    · exact Or.inl (e1 ▸ h2)
    · exact Or.inr ⟨e1.trans e2, Or.inl (lt_trans h1 h2)⟩
    · exact Or.inr ⟨e1.trans e2, Or.inl (n2 ▸ h1)⟩
  · rcases hbc with h2 | ⟨e2, h2 | ⟨n2, f2, g2⟩⟩
    · exact Or.inl (e1 ▸ h2)
    · exact Or.inr ⟨e1.trans e2, Or.inl (n1 ▸ h2)⟩
    · rw [g1] at f2; cases f2

theorem crossingKey_lt_total (a b : CrossingFeatureData) (h : a ≠ b) :
    a.lt b = true ∨ b.lt a = true := by
  rw [crossingKey_lt_iff, crossingKey_lt_iff]
  rcases lt_trichotomy a.m_length b.m_length with hl | hl | hl
  · exact Or.inl (Or.inl hl)
  · rcases lt_trichotomy a.m_nonTerm b.m_nonTerm with hn | hn | hn
    · exact Or.inl (Or.inr ⟨hl, Or.inl hn⟩)
    · have hc : a.m_isCrossing ≠ b.m_isCrossing := by
        intro hc
        apply h
        cases a; cases b
        simp only [CrossingFeatureData.mk.injEq]
        exact ⟨hl, hn, hc⟩
      cases ha : a.m_isCrossing <;> cases hb : b.m_isCrossing
      · rw [ha, hb] at hc; exact absurd rfl hc
      · exact Or.inl (Or.inr ⟨hl, Or.inr ⟨hn, rfl, rfl⟩⟩)
      · exact Or.inr (Or.inr ⟨hl.symm, Or.inr ⟨hn.symm, rfl, rfl⟩⟩)
      · rw [ha, hb] at hc; exact absurd rfl hc
    · exact Or.inr (Or.inr ⟨hl.symm, Or.inl hn⟩)
  · exact Or.inr (Or.inl hl)

/-- The map takes two keys for the same exactly when they are equal. -/
theorem crossingKey_equivalent_iff (a b : CrossingFeatureData) :
    (!a.lt b && !b.lt a) = true ↔ a = b := by
  constructor
  · intro h
    by_contra hne
    rcases crossingKey_lt_total a b hne with h1 | h1 <;> simp [h1] at h
  · intro h
    subst h
    simp [crossingKey_lt_irrefl]

theorem CrossingTable_find_nil (key : CrossingFeatureData) :
    CrossingTable.find [] key = none := rfl

theorem CrossingTable_find_cons (entry : CrossingFeatureData × ℚ) (m : CrossingTable)
    (key : CrossingFeatureData) :
    CrossingTable.find (entry :: m) key =
      if entry.1 = key then some entry.2 else CrossingTable.find m key := by
  unfold CrossingTable.find
  by_cases h : entry.1 = key
  · have := (crossingKey_equivalent_iff entry.1 key).mpr h
    rw [List.find?_cons, this, if_pos h]
    rfl
  · have : (!entry.1.lt key && !key.lt entry.1) = false := by
      cases hb : (!entry.1.lt key && !key.lt entry.1) with
      | false => rfl
      | true => exact absurd ((crossingKey_equivalent_iff entry.1 key).mp hb) h
    rw [List.find?_cons, this, if_neg h]

theorem CrossingTable_find_append (m1 m2 : CrossingTable) (key : CrossingFeatureData) :
    CrossingTable.find (m1 ++ m2) key =
      (CrossingTable.find m1 key).or (CrossingTable.find m2 key) := by
  induction m1 with
  | nil => simp [CrossingTable_find_nil]
  | cons e m1 ih =>
    rw [List.cons_append, CrossingTable_find_cons, CrossingTable_find_cons, ih]
    by_cases h : e.1 = key <;> simp [h]

theorem CrossingTable_find_none (m : CrossingTable) (key : CrossingFeatureData)
    (h : ∀ r ∈ m, r.1 ≠ key) : CrossingTable.find m key = none := by
  induction m with
  | nil => rfl
  | cons e m ih =>
    rw [CrossingTable_find_cons, if_neg (h e (List.mem_cons_self e m))]
    exact ih (fun r hr => h r (List.mem_cons_of_mem e hr))

/-- Entering records into the map puts them in front of it, newest first. -/
theorem foldl_assign (records : List (CrossingFeatureData × ℚ)) (m : CrossingTable) :
    records.foldl (fun m record => CrossingTable.assign m record.1 record.2) m =
      records.reverse ++ m := by
  induction records generalizing m with
  | nil => rfl
  | cons r rs ih =>
    rw [List.foldl_cons, ih]
    simp [CrossingTable.assign]

theorem LoadDataFile_of_open (fs : CrossingFiles) (dataPath : String) (m : CrossingTable)
    (records : List (CrossingFeatureData × ℚ)) (h : fs dataPath = some records) :
    LoadDataFile fs dataPath m = (true, records.reverse ++ m) := by
  simp only [LoadDataFile, h, foldl_assign]

theorem Score_of_find (m : CrossingTable) (n : Int) (tag : String) (c : Bool) (w : ℚ)
    (h : CrossingTable.find m { m_length := n, m_nonTerm := tag, m_isCrossing := c } = some w) :
    Score m n tag c = w := by
  simp only [Score, h]

theorem Score_of_find_none (m : CrossingTable) (n : Int) (tag : String) (c : Bool)
    (h : CrossingTable.find m { m_length := n, m_nonTerm := tag, m_isCrossing := c } = none) :
    Score m n tag c = 0 := by
  simp only [Score, h]

/-- In the map loaded from a file the newest assignment to a key is the last
record of the file for that key. -/
theorem find_reverse_lastRecordFor (records : List (CrossingFeatureData × ℚ))
    (m : CrossingTable) (key : CrossingFeatureData) (w : ℚ)
    (h : lastRecordFor records key w) :
    CrossingTable.find (records.reverse ++ m) key = some w := by
  obtain ⟨before, after, hrec, hafter⟩ := h
  rw [hrec, List.reverse_append, List.reverse_cons, List.append_assoc, List.append_assoc,
    CrossingTable_find_append,
    CrossingTable_find_none after.reverse key
      (fun r hr => hafter r (List.mem_reverse.mp hr))]
  simp [CrossingTable_find_cons]

theorem GetWord_of_lt (ws : Phrase) (p : Nat) (h : p < ws.length) :
    ∃ w, Phrase.GetWord ws p = some w :=
  ⟨ws.get ⟨p, h⟩, by simp [Phrase.GetWord, List.get?_eq_get h]⟩

theorem isNonTerminalAt_of_GetWord (ws : Phrase) (p : Nat) (w : Word)
    (h : Phrase.GetWord ws p = some w) : isNonTerminalAt ws p = w.isNonTerminal := by
  simp only [isNonTerminalAt, h]

theorem simpleStep_eq (F : WordTranslationFeature) (s t : String)
    (acc : ScoreComponentCollection) :
    simpleStep F s t acc = acc ++ simpleEmission F s t := by
  unfold simpleStep simpleEmission SparsePlusEquals
  cases F.m_simple <;> simp

/-- The body of the loop of `Evaluate` on a point that passes lines 62-81 runs
the feature steps on the two words after vocabulary restriction. -/
theorem EvaluatePoint_of_reaches (F : WordTranslationFeature) (input : Sentence)
    (cur_hypo : Hypothesis) (pt : Nat × Nat) (acc : ScoreComponentCollection)
    (h : reachesFeatureSteps F cur_hypo.currTargetPhrase pt) :
    EvaluatePoint F input cur_hypo pt acc =
      featureSteps F input cur_hypo pt
        (restrictWord F.m_unrestricted F.m_vocabSource
          (sourceWordAt F cur_hypo.currTargetPhrase pt))
        (restrictWord F.m_unrestricted F.m_vocabTarget
          (targetWordAt F cur_hypo.currTargetPhrase pt)) acc := by
  obtain ⟨ws, wt, hws, hwt, hs, ht, hp⟩ := h
  have hres := resolveAlignmentPoint_of_words F cur_hypo.currTargetPhrase pt ws wt hws hwt hs ht
  rw [hp] at hres
  rw [EvaluatePoint_of_resolved F input cur_hypo pt _ _ acc hres]
  simp only [featureSteps, sourceWordAt, targetWordAt, triggerAt_of_GetWord _ _ _ ws hws,
    triggerAt_of_GetWord _ _ _ wt hwt]

/-- The body of the loop of `EvaluateChart` on a point that passes lines
202-221 runs the simple step on the two words after vocabulary restriction. -/
theorem EvaluateChartPoint_of_reaches (F : WordTranslationFeature) (chart : ChartHypothesis)
    (pt : Nat × Nat) (acc : ScoreComponentCollection)
    (h : reachesFeatureSteps F chart.currTargetPhrase pt) :
    EvaluateChartPoint F chart pt acc =
      .ok (acc ++ simpleEmission F
        (restrictWord F.m_unrestricted F.m_vocabSource (sourceWordAt F chart.currTargetPhrase pt))
        (restrictWord F.m_unrestricted F.m_vocabTarget
          (targetWordAt F chart.currTargetPhrase pt))) := by
  obtain ⟨ws, wt, hws, hwt, hs, ht, hp⟩ := h
  have hres := resolveAlignmentPoint_of_words F chart.currTargetPhrase pt ws wt hws hwt hs ht
  rw [hp] at hres
  rw [EvaluateChartPoint_of_resolved F chart pt _ _ acc hres, simpleStep_eq]
  simp only [sourceWordAt, targetWordAt, triggerAt_of_GetWord _ _ _ ws hws,
    triggerAt_of_GetWord _ _ _ wt hwt]

/-- Two loop bodies that agree on the elements of the list give the same loop. -/
theorem forEach_congr {α σ : Type} (body1 body2 : α → σ → Except Failure σ) (xs : List α)
    (h : ∀ x ∈ xs, ∀ s, body1 x s = body2 x s) (s : σ) :
    forEach body1 xs s = forEach body2 xs s := by
  induction xs generalizing s with
  | nil => rfl
  | cons x xs ih =>
    simp only [forEach, h x (List.mem_cons_self x xs) s]
    cases body2 x s with
    | error e => rfl
    | ok s' => exact ih (fun y hy => h y (List.mem_cons_of_mem x hy)) s'

/-- The feature steps without punctuation filtering, in closed form. -/
theorem featureSteps_noPunct (F : WordTranslationFeature) (input : Sentence)
    (cur_hypo : Hypothesis) (pt : Nat × Nat) (s t : String) (acc : ScoreComponentCollection)
    (hp : F.m_ignorePunctuation = false) :
    featureSteps F input cur_hypo pt s t acc =
      .ok (acc ++ (simpleEmission F s t ++
        sourceContextEmissions F input (cur_hypo.currSourceWordsRangeStart + pt.1) s t ++
        targetContextEmissions F cur_hypo (cur_hypo.currTargetWordsRangeStart + pt.2) s t)) := by
  unfold featureSteps sourceContextEmissions targetContextEmissions
  rw [simpleStep_eq]
  cases hsc : F.m_sourceContext <;> cases htc : F.m_targetContext <;>
    simp only [Bool.false_eq_true, if_false, if_true,
      sourceContextStep_noPunct F input _ s t _ hp,
      targetContextStep_noPunct F cur_hypo _ s t _ hp, List.append_assoc, List.append_nil]

/-- The body of the loop of `Evaluate` without punctuation filtering on a point
within the phrases, in closed form. -/
theorem EvaluatePoint_noPunct (F : WordTranslationFeature) (input : Sentence)
    (cur_hypo : Hypothesis) (pt : Nat × Nat) (acc : ScoreComponentCollection)
    (hp : F.m_ignorePunctuation = false)
    (h1 : pt.1 < cur_hypo.currTargetPhrase.sourcePhrase.length)
    (h2 : pt.2 < cur_hypo.currTargetPhrase.words.length) :
    EvaluatePoint F input cur_hypo pt acc =
      .ok (acc ++
        if pointSkipped F cur_hypo.currTargetPhrase pt then []
        else
          simpleEmission F
            (restrictWord F.m_unrestricted F.m_vocabSource
              (sourceWordAt F cur_hypo.currTargetPhrase pt))
            (restrictWord F.m_unrestricted F.m_vocabTarget
              (targetWordAt F cur_hypo.currTargetPhrase pt)) ++
          sourceContextEmissions F input (cur_hypo.currSourceWordsRangeStart + pt.1)
            (restrictWord F.m_unrestricted F.m_vocabSource
              (sourceWordAt F cur_hypo.currTargetPhrase pt))
            (restrictWord F.m_unrestricted F.m_vocabTarget
              (targetWordAt F cur_hypo.currTargetPhrase pt)) ++
          targetContextEmissions F cur_hypo (cur_hypo.currTargetWordsRangeStart + pt.2)
            (restrictWord F.m_unrestricted F.m_vocabSource
              (sourceWordAt F cur_hypo.currTargetPhrase pt))
            (restrictWord F.m_unrestricted F.m_vocabTarget
              (targetWordAt F cur_hypo.currTargetPhrase pt))) := by
  obtain ⟨ws, hws⟩ := GetWord_of_lt _ _ h1
  obtain ⟨wt, hwt⟩ := GetWord_of_lt _ _ h2
  have hskip : pointSkipped F cur_hypo.currTargetPhrase pt =
      (F.m_factorTypeSource == 0 && (ws.isNonTerminal || wt.isNonTerminal)) := by
    simp only [pointSkipped, isNonTerminalAt_of_GetWord _ _ ws hws,
      isNonTerminalAt_of_GetWord _ _ wt hwt]
  cases hs : (F.m_factorTypeSource == 0 && ws.isNonTerminal) with
  | true =>
    have hres : resolveAlignmentPoint F cur_hypo.currTargetPhrase pt = .ok none := by
      simp only [resolveAlignmentPoint, hws, hs, if_true]
    have hsk : pointSkipped F cur_hypo.currTargetPhrase pt = true := by
      rw [hskip]
      simp only [Bool.and_eq_true] at hs
      simp [hs.1, hs.2]
    rw [EvaluatePoint_of_skipped F input cur_hypo pt acc hres, hsk]
    simp
  | false =>
    cases ht : (F.m_factorTypeSource == 0 && wt.isNonTerminal) with
    | true =>
      have hres : resolveAlignmentPoint F cur_hypo.currTargetPhrase pt = .ok none := by
        simp only [resolveAlignmentPoint, hws, hwt, hs, ht, if_true, Bool.false_eq_true,
          if_false]
      have hsk : pointSkipped F cur_hypo.currTargetPhrase pt = true := by
        rw [hskip]
        simp only [Bool.and_eq_true] at ht
        simp [ht.1, ht.2]
      rw [EvaluatePoint_of_skipped F input cur_hypo pt acc hres, hsk]
      simp
    | false =>
      have hsk : pointSkipped F cur_hypo.currTargetPhrase pt = false := by
        rw [hskip, Bool.and_or_distrib_left, hs, ht]
        rfl
      rw [EvaluatePoint_of_reaches F input cur_hypo pt acc
        ⟨ws, wt, hws, hwt, hs, ht, punctuationSkip_off F _ _ hp⟩,
        featureSteps_noPunct F input cur_hypo pt _ _ acc hp, hsk]
      simp

/-- The function `Evaluate` without punctuation filtering on an alignment
within the phrases, in closed form. -/
theorem Evaluate_noPunct (F : WordTranslationFeature) (input : Sentence)
    (cur_hypo : Hypothesis) (acc : ScoreComponentCollection)
    (hp : F.m_ignorePunctuation = false)
    (hrange : pointsInRange cur_hypo.currTargetPhrase
      cur_hypo.currTargetPhrase.alignmentInfo.points) :
    Evaluate F input cur_hypo acc =
      .ok (acc ++ (cur_hypo.currTargetPhrase.alignmentInfo.points.map (fun pt =>
        if pointSkipped F cur_hypo.currTargetPhrase pt then []
        else
          simpleEmission F
            (restrictWord F.m_unrestricted F.m_vocabSource
              (sourceWordAt F cur_hypo.currTargetPhrase pt))
            (restrictWord F.m_unrestricted F.m_vocabTarget
              (targetWordAt F cur_hypo.currTargetPhrase pt)) ++
          sourceContextEmissions F input (cur_hypo.currSourceWordsRangeStart + pt.1)
            (restrictWord F.m_unrestricted F.m_vocabSource
              (sourceWordAt F cur_hypo.currTargetPhrase pt))
            (restrictWord F.m_unrestricted F.m_vocabTarget
              (targetWordAt F cur_hypo.currTargetPhrase pt)) ++
          targetContextEmissions F cur_hypo (cur_hypo.currTargetWordsRangeStart + pt.2)
            (restrictWord F.m_unrestricted F.m_vocabSource
              (sourceWordAt F cur_hypo.currTargetPhrase pt))
            (restrictWord F.m_unrestricted F.m_vocabTarget
              (targetWordAt F cur_hypo.currTargetPhrase pt)))).flatten) := by
  unfold Evaluate
  exact forEach_emit _ _ _
    (fun pt hmem a => EvaluatePoint_noPunct F input cur_hypo pt a hp (hrange pt hmem).1
      (hrange pt hmem).2) acc

/-! ## The claims -/

/-- C1: `Evaluate` and `EvaluateChart` build every feature name of an
alignment point from a pair of used words that comes from the two words of the
point as follows: in unrestricted mode each word is used unchanged, whatever
the vocabulary sets hold; in restricted mode a word that is a member of its
side's vocabulary set is used unchanged and a word that is not a member is
replaced by "OTHER".  For an alignment whose points all pass the non-terminal
and punctuation tests, `Evaluate` runs the feature steps of lines 90-188 on
the used words of each point; without punctuation filtering its result is the
list of the simple, source-context and target-context entries of the used
words of each point; in simple mode only it is one entry
`"wt_" ++ usedSource ++ "~" ++ usedTarget` with amount 1 per point, and so is
the result of `EvaluateChart` in simple mode. -/
theorem vocabulary_restriction_applied (F : WordTranslationFeature) (input : Sentence)
    (cur_hypo : Hypothesis) (chart : ChartHypothesis) (featureID : Int)
    (acc : ScoreComponentCollection)
    (hE : ∀ pt ∈ cur_hypo.currTargetPhrase.alignmentInfo.points,
      reachesFeatureSteps F cur_hypo.currTargetPhrase pt)
    (hC : ∀ pt ∈ chart.currTargetPhrase.alignmentInfo.terminalAlignments,
      reachesFeatureSteps F chart.currTargetPhrase pt) :
    ∃ used : TargetPhrase → Nat × Nat → String × String,
      (∀ tp pt,
        (F.m_unrestricted = true →
          used tp pt = (sourceWordAt F tp pt, targetWordAt F tp pt)) ∧
        (F.m_unrestricted = false →
          (sourceWordAt F tp pt ∈ F.m_vocabSource → (used tp pt).1 = sourceWordAt F tp pt) ∧
          (sourceWordAt F tp pt ∉ F.m_vocabSource → (used tp pt).1 = "OTHER") ∧
          (targetWordAt F tp pt ∈ F.m_vocabTarget → (used tp pt).2 = targetWordAt F tp pt) ∧
          (targetWordAt F tp pt ∉ F.m_vocabTarget → (used tp pt).2 = "OTHER"))) ∧
      Evaluate F input cur_hypo acc =
        forEach (fun pt a => featureSteps F input cur_hypo pt
            (used cur_hypo.currTargetPhrase pt).1 (used cur_hypo.currTargetPhrase pt).2 a)
          cur_hypo.currTargetPhrase.alignmentInfo.points acc ∧
      (F.m_ignorePunctuation = false →
        Evaluate F input cur_hypo acc =
          .ok (acc ++ (cur_hypo.currTargetPhrase.alignmentInfo.points.map (fun pt =>
            simpleEmission F (used cur_hypo.currTargetPhrase pt).1
              (used cur_hypo.currTargetPhrase pt).2 ++
            sourceContextEmissions F input (cur_hypo.currSourceWordsRangeStart + pt.1)
              (used cur_hypo.currTargetPhrase pt).1 (used cur_hypo.currTargetPhrase pt).2 ++
            targetContextEmissions F cur_hypo (cur_hypo.currTargetWordsRangeStart + pt.2)
              (used cur_hypo.currTargetPhrase pt).1
              (used cur_hypo.currTargetPhrase pt).2)).flatten)) ∧
      (F.m_simple = true → F.m_sourceContext = false → F.m_targetContext = false →
        Evaluate F input cur_hypo acc =
          .ok (acc ++ cur_hypo.currTargetPhrase.alignmentInfo.points.map (fun pt =>
            ("wt_" ++ (used cur_hypo.currTargetPhrase pt).1 ++ "~" ++
              (used cur_hypo.currTargetPhrase pt).2, 1)))) ∧
      (F.m_simple = true →
        EvaluateChart F chart featureID acc =
          .ok (acc ++ chart.currTargetPhrase.alignmentInfo.terminalAlignments.map (fun pt =>
            ("wt_" ++ (used chart.currTargetPhrase pt).1 ++ "~" ++
              (used chart.currTargetPhrase pt).2, 1)))) := by
  refine ⟨fun tp pt =>
    (restrictWord F.m_unrestricted F.m_vocabSource (sourceWordAt F tp pt),
     restrictWord F.m_unrestricted F.m_vocabTarget (targetWordAt F tp pt)), ?_, ?_, ?_, ?_, ?_⟩
  · intro tp pt
    refine ⟨fun hu => ?_, fun hu => ?_⟩
    · simp only [hu, restrictWord_unrestricted]
    · simp only [hu]
      exact ⟨restrictWord_mem _ _, restrictWord_not_mem _ _, restrictWord_mem _ _,
        restrictWord_not_mem _ _⟩
  · unfold Evaluate
    exact forEach_congr _ _ _
      (fun pt hmem a => EvaluatePoint_of_reaches F input cur_hypo pt a (hE pt hmem)) acc
  · intro hp
    unfold Evaluate
    refine forEach_emit _ _ _ (fun pt hmem a => ?_) acc
    rw [EvaluatePoint_of_reaches F input cur_hypo pt a (hE pt hmem),
      featureSteps_noPunct F input cur_hypo pt _ _ a hp]
  · intro hsimple hsc htc
    unfold Evaluate
    rw [← flatten_map_singleton]
    refine forEach_emit _ _ _ (fun pt hmem a => ?_) acc
    rw [EvaluatePoint_of_reaches F input cur_hypo pt a (hE pt hmem)]
    simp only [featureSteps, hsc, htc, Bool.false_eq_true, if_false, simpleStep_eq,
      simpleEmission, hsimple, if_true]
  · intro hsimple
    unfold EvaluateChart
    rw [← flatten_map_singleton]
    refine forEach_emit _ _ _ (fun pt hmem a => ?_) acc
    rw [EvaluateChartPoint_of_reaches F chart pt a (hC pt hmem)]
    simp only [simpleEmission, hsimple, if_true]

/-- Witness for C1: restricted to the source vocabulary "the", "cat" and the
target vocabulary "le", "chat", the hypothesis aligning "the" to "assis" gets
the feature "wt_the~OTHER" from `Evaluate` and from `EvaluateChart`. -/
theorem vocabulary_restriction_applied_witness :
    Evaluate restrictedFilteringFeature sampleSentence (oneWordHypothesis "the" "assis" 0 []) [] =
      .ok [("wt_the~OTHER", 1)] ∧
    EvaluateChart restrictedFilteringFeature (chartOf (oneWordHypothesis "the" "assis" 0 [])) 0
      [] = .ok [("wt_the~OTHER", 1)] := by
  obtain ⟨used, hchar, -, -, hE, hC⟩ :=
    vocabulary_restriction_applied restrictedFilteringFeature sampleSentence
      (oneWordHypothesis "the" "assis" 0 []) (chartOf (oneWordHypothesis "the" "assis" 0 [])) 0 []
      (fun pt hmem => List.mem_singleton.mp hmem ▸
        ⟨terminal "the", terminal "assis", rfl, rfl, rfl, rfl, rfl⟩)
      (fun pt hmem => List.mem_singleton.mp hmem ▸
        ⟨terminal "the", terminal "assis", rfl, rfl, rfl, rfl, rfl⟩)
  have hu := (hchar (oneWordHypothesis "the" "assis" 0 []).currTargetPhrase (0, 0)).2 rfl
  have h1 : (used (oneWordHypothesis "the" "assis" 0 []).currTargetPhrase (0, 0)).1 = "the" :=
    hu.1 (by decide)
  have h2 : (used (oneWordHypothesis "the" "assis" 0 []).currTargetPhrase (0, 0)).2 = "OTHER" :=
    hu.2.2.2 (by decide)
  constructor
  · rw [hE rfl rfl rfl]
    show Except.ok ([] ++ [("wt_" ++
      (used (oneWordHypothesis "the" "assis" 0 []).currTargetPhrase (0, 0)).1 ++ "~" ++
      (used (oneWordHypothesis "the" "assis" 0 []).currTargetPhrase (0, 0)).2, (1 : Int))]) = _
    rw [h1, h2]
    rfl
  · rw [hC rfl]
    show Except.ok ([] ++ [("wt_" ++
      (used (oneWordHypothesis "the" "assis" 0 []).currTargetPhrase (0, 0)).1 ++ "~" ++
      (used (oneWordHypothesis "the" "assis" 0 []).currTargetPhrase (0, 0)).2, (1 : Int))]) = _
    rw [h1, h2]
    rfl

/-- C2, as the code has it: for a hypothesis whose alignment is a single point
with both words terminals, both words in their side's vocabulary or the filter
unrestricted, simple mode enabled and both context modes disabled, and, when
punctuation filtering is on, both words non-empty and starting with a
non-punctuation character, `Evaluate` makes exactly one call
`SparsePlusEquals(name, 1)`, with `name = "wt_" ++ source ++ "~" ++ target`. -/
theorem evaluate_single_point_simple (F : WordTranslationFeature) (input : Sentence)
    (cur_hypo : Hypothesis) (pt : Nat × Nat) (ws wt : Word)
    (acc : ScoreComponentCollection)
    (hal : cur_hypo.currTargetPhrase.alignmentInfo.points = [pt])
    (hws : cur_hypo.currTargetPhrase.sourcePhrase.GetWord pt.1 = some ws)
    (hwt : cur_hypo.currTargetPhrase.words.GetWord pt.2 = some wt)
    (hs : ws.isNonTerminal = false) (ht : wt.isNonTerminal = false)
    (hv : F.m_unrestricted = true ∨
      (ws.factorString F.m_factorTypeSource ∈ F.m_vocabSource ∧
       wt.factorString F.m_factorTypeTarget ∈ F.m_vocabTarget))
    (hp : F.m_ignorePunctuation = true →
      startsWithOther F (ws.factorString F.m_factorTypeSource) ∧
      startsWithOther F (wt.factorString F.m_factorTypeTarget))
    (hsimple : F.m_simple = true) (hsc : F.m_sourceContext = false)
    (htc : F.m_targetContext = false) :
    Evaluate F input cur_hypo acc =
      .ok (acc ++ [("wt_" ++ ws.factorString F.m_factorTypeSource ++ "~" ++
                    wt.factorString F.m_factorTypeTarget, 1)]) := by
  rw [Evaluate_single_simple F input cur_hypo pt ws wt acc hal hws hwt (by simp [hs])
    (by simp [ht]) (punctuationSkip_pass F _ _ hp) hsimple hsc htc]
  rcases hv with hu | ⟨hms, hmt⟩
  · rw [hu, restrictWord_unrestricted, restrictWord_unrestricted]
  · cases hu : F.m_unrestricted with
    | true => rw [restrictWord_unrestricted, restrictWord_unrestricted]
    | false => rw [restrictWord_mem _ _ hms, restrictWord_mem _ _ hmt]

/-- Witness for C2: with punctuation filtering on the comma, the one-point
hypothesis aligning "the" to "le" yields the single feature "wt_the~le". -/
theorem evaluate_single_point_simple_witness :
    Evaluate { freshFeature [','] with m_ignorePunctuation := true }
      (["the", "cat", "sat"].map terminal) (oneWordHypothesis "the" "le" 0 []) [] =
      .ok [("wt_the~le", 1)] :=
  evaluate_single_point_simple { freshFeature [','] with m_ignorePunctuation := true }
    (["the", "cat", "sat"].map terminal) (oneWordHypothesis "the" "le" 0 []) (0, 0)
    (terminal "the") (terminal "le") [] rfl rfl rfl rfl rfl (Or.inl rfl)
    (fun _ => ⟨⟨'t', ['h', 'e'], rfl, by decide⟩, ⟨'l', ['e'], rfl, by decide⟩⟩) rfl rfl rfl

/-- Counterexample to C2 as stated: with punctuation filtering on the comma, in
unrestricted simple mode without context modes, the hypothesis whose single
alignment point aligns the empty terminal source word to the terminal target
word "le" meets every condition of the claim, neither word starting with a
punctuation character, and `Evaluate` emits nothing: `sourceWord.at(0)`
throws at line 73. -/
theorem empty_source_word_single_point_throws :
    (oneWordHypothesis "" "le" 0 []).currTargetPhrase.alignmentInfo.points = [(0, 0)] ∧
    (oneWordHypothesis "" "le" 0 []).currTargetPhrase.sourcePhrase.GetWord 0 =
      some (terminal "") ∧
    (oneWordHypothesis "" "le" 0 []).currTargetPhrase.words.GetWord 0 = some (terminal "le") ∧
    ¬ startsWithPunctuation { freshFeature [','] with m_ignorePunctuation := true } "" ∧
    ¬ startsWithPunctuation { freshFeature [','] with m_ignorePunctuation := true } "le" ∧
    Evaluate { freshFeature [','] with m_ignorePunctuation := true } sampleSentence
      (oneWordHypothesis "" "le" 0 []) [] = .error .stringOutOfRange := by
  refine ⟨rfl, rfl, rfl, ?_, ?_, rfl⟩
  · rintro ⟨c, rest, h, _⟩
    cases h
  · rintro ⟨c, rest, h, hc⟩
    cases h
    exact absurd hc (by decide)

/-- C3: with source-context mode enabled, the vocabulary unrestricted and
punctuation filtering disabled, `Evaluate` on an alignment within the phrases
appends, for every alignment point that is not skipped as a non-terminal and
in the order of the points: the simple entry, then the source-context entries,
then the target-context entries.  The source-context entries of a point at
global source position `g = source range start + source index` are the
boundary feature "wt_<s>,<source>~<target>" exactly when `g = 0`, followed by
one context feature for each position of the input sentence other than `g`;
when `g` is a position of the sentence of length N these are exactly N-1
context features. -/
theorem source_context_feature_count (F : WordTranslationFeature) (input : Sentence)
    (cur_hypo : Hypothesis) (acc : ScoreComponentCollection)
    (hsc : F.m_sourceContext = true) (hu : F.m_unrestricted = true)
    (hp : F.m_ignorePunctuation = false)
    (hrange : pointsInRange cur_hypo.currTargetPhrase
      cur_hypo.currTargetPhrase.alignmentInfo.points) :
    Evaluate F input cur_hypo acc =
      .ok (acc ++ (cur_hypo.currTargetPhrase.alignmentInfo.points.map (fun pt =>
        if pointSkipped F cur_hypo.currTargetPhrase pt then []
        else
          simpleEmission F (sourceWordAt F cur_hypo.currTargetPhrase pt)
            (targetWordAt F cur_hypo.currTargetPhrase pt) ++
          ((if cur_hypo.currSourceWordsRangeStart + pt.1 = 0 then
              [("wt_" ++ "<s>," ++ sourceWordAt F cur_hypo.currTargetPhrase pt ++ "~" ++
                targetWordAt F cur_hypo.currTargetPhrase pt, 1)]
            else []) ++
            ((List.range input.length).filter
              (fun p => decide (p ≠ cur_hypo.currSourceWordsRangeStart + pt.1))).map
              (sourceContextFeature input F.m_factorTypeSource
                (cur_hypo.currSourceWordsRangeStart + pt.1)
                (sourceWordAt F cur_hypo.currTargetPhrase pt)
                (targetWordAt F cur_hypo.currTargetPhrase pt))) ++
          targetContextEmissions F cur_hypo (cur_hypo.currTargetWordsRangeStart + pt.2)
            (sourceWordAt F cur_hypo.currTargetPhrase pt)
            (targetWordAt F cur_hypo.currTargetPhrase pt))).flatten) ∧
    ∀ pt ∈ cur_hypo.currTargetPhrase.alignmentInfo.points,
      cur_hypo.currSourceWordsRangeStart + pt.1 < input.length →
      (((List.range input.length).filter
        (fun p => decide (p ≠ cur_hypo.currSourceWordsRangeStart + pt.1))).map
        (sourceContextFeature input F.m_factorTypeSource
          (cur_hypo.currSourceWordsRangeStart + pt.1)
          (sourceWordAt F cur_hypo.currTargetPhrase pt)
          (targetWordAt F cur_hypo.currTargetPhrase pt))).length = input.length - 1 := by
  constructor
  · rw [Evaluate_noPunct F input cur_hypo acc hp hrange]
    simp only [hu, restrictWord_unrestricted, sourceContextEmissions, hsc, if_true,
      Bool.true_or, Bool.and_true, sourceBoundary]
  · intro pt _ hg
    rw [List.length_map, length_filter_ne_range _ _ hg]

/-- Witness for C3: on the sentence "the cat sat" the hypothesis aligning
"cat" (global source position 1) to "chat" gets the simple feature and two
context features, and no boundary feature. -/
theorem source_context_feature_count_witness :
    Evaluate { freshFeature [] with m_sourceContext := true } sampleSentence
      (oneWordHypothesis "cat" "chat" 1 ["le"]) [] =
      .ok [("wt_cat~chat", 1), ("wt_the,cat~chat", 1), ("wt_cat,sat~chat", 1)] :=
  (source_context_feature_count { freshFeature [] with m_sourceContext := true } sampleSentence
    (oneWordHypothesis "cat" "chat" 1 ["le"]) [] rfl rfl rfl
    (fun pt hmem => List.mem_singleton.mp hmem ▸ ⟨by decide, by decide⟩)).1

/-- C4: with target-context mode enabled, the vocabulary unrestricted and
punctuation filtering disabled, `Evaluate` on an alignment within the phrases
appends, for every alignment point that is not skipped as a non-terminal and
in the order of the points: the simple entry, then the source-context entries,
then the target-context entries.  The target-context entries of a point at
global target position `g = target range start + target index` are the
boundary feature "wt_<source>~<s>,<target>" exactly when `g = 0`, followed by
exactly one feature "wt_<source>~<trigger>,<target>" for each position
`p < g`, in ascending order, where the trigger is the hypothesis word at `p`;
there is none for a position `p ≥ g`. -/
theorem target_context_features (F : WordTranslationFeature) (input : Sentence)
    (cur_hypo : Hypothesis) (acc : ScoreComponentCollection)
    (htc : F.m_targetContext = true) (hu : F.m_unrestricted = true)
    (hp : F.m_ignorePunctuation = false)
    (hrange : pointsInRange cur_hypo.currTargetPhrase
      cur_hypo.currTargetPhrase.alignmentInfo.points) :
    Evaluate F input cur_hypo acc =
      .ok (acc ++ (cur_hypo.currTargetPhrase.alignmentInfo.points.map (fun pt =>
        if pointSkipped F cur_hypo.currTargetPhrase pt then []
        else
          simpleEmission F (sourceWordAt F cur_hypo.currTargetPhrase pt)
            (targetWordAt F cur_hypo.currTargetPhrase pt) ++
          sourceContextEmissions F input (cur_hypo.currSourceWordsRangeStart + pt.1)
            (sourceWordAt F cur_hypo.currTargetPhrase pt)
            (targetWordAt F cur_hypo.currTargetPhrase pt) ++
          ((if cur_hypo.currTargetWordsRangeStart + pt.2 = 0 then
              [("wt_" ++ sourceWordAt F cur_hypo.currTargetPhrase pt ++ "~" ++ "<s>," ++
                targetWordAt F cur_hypo.currTargetPhrase pt, 1)]
            else []) ++
            (List.range (cur_hypo.currTargetWordsRangeStart + pt.2)).map (fun p =>
              ("wt_" ++ sourceWordAt F cur_hypo.currTargetPhrase pt ++ "~" ++
                (cur_hypo.GetWord p).factorString F.m_factorTypeTarget ++ "," ++
                targetWordAt F cur_hypo.currTargetPhrase pt, 1))))).flatten) := by
  rw [Evaluate_noPunct F input cur_hypo acc hp hrange]
  simp only [hu, restrictWord_unrestricted, targetContextEmissions, htc, if_true,
    Bool.true_or, List.filter_true, targetBoundary]
  rfl

/-- Witness for C4: after "le petit" has been placed, the hypothesis aligning
"cat" to "chat" at global target position 2 gets the simple feature and one
context feature for each of the two earlier target words, and no boundary
feature. -/
theorem target_context_features_witness :
    Evaluate { freshFeature [] with m_targetContext := true } sampleSentence
      (oneWordHypothesis "cat" "chat" 1 ["le", "petit"]) [] =
      .ok [("wt_cat~chat", 1), ("wt_cat~le,chat", 1), ("wt_cat~petit,chat", 1)] :=
  target_context_features { freshFeature [] with m_targetContext := true } sampleSentence
    (oneWordHypothesis "cat" "chat" 1 ["le", "petit"]) [] rfl rfl rfl
    (fun pt hmem => List.mem_singleton.mp hmem ▸ ⟨by decide, by decide⟩)

/-- C5: with punctuation filtering enabled, an alignment point whose source
word or target word, as read from the phrase and before any vocabulary
restriction, starts with a character of the punctuation table produces no
feature in `Evaluate` nor in `EvaluateChart`, whatever the simple,
source-context and target-context flags and the vocabulary sets are: the body
of either loop returns the accumulator it was given, except that it throws
`std::out_of_range` when the source word is empty (the target word being the
punctuation). -/
theorem punctuation_point_emits_nothing (F : WordTranslationFeature) (input : Sentence)
    (cur_hypo : Hypothesis) (chart : ChartHypothesis) (pt : Nat × Nat) (ws wt : Word)
    (acc : ScoreComponentCollection)
    (hip : F.m_ignorePunctuation = true)
    (hchart : chart.currTargetPhrase = cur_hypo.currTargetPhrase)
    (hws : cur_hypo.currTargetPhrase.sourcePhrase.GetWord pt.1 = some ws)
    (hwt : cur_hypo.currTargetPhrase.words.GetWord pt.2 = some wt)
    (hpunct : startsWithPunctuation F (ws.factorString F.m_factorTypeSource) ∨
      startsWithPunctuation F (wt.factorString F.m_factorTypeTarget)) :
    (EvaluatePoint F input cur_hypo pt acc = .ok acc ∧
      EvaluateChartPoint F chart pt acc = .ok acc) ∨
    (ws.factorString F.m_factorTypeSource = "" ∧
      EvaluatePoint F input cur_hypo pt acc = .error .stringOutOfRange ∧
      EvaluateChartPoint F chart pt acc = .error .stringOutOfRange) := by
  rcases resolveAlignmentPoint_punctuation F cur_hypo.currTargetPhrase pt ws wt hip hws hwt
    hpunct with h | ⟨he, h⟩
  · left
    exact ⟨EvaluatePoint_of_skipped F input cur_hypo pt acc h,
      EvaluateChartPoint_of_skipped F chart pt acc (by rw [hchart]; exact h)⟩
  · right
    exact ⟨he, EvaluatePoint_of_error F input cur_hypo pt acc _ h,
      EvaluateChartPoint_of_error F chart pt acc _ (by rw [hchart]; exact h)⟩

/-- Witness for C5: in restricted mode with every feature mode on and the
comma in the punctuation table, the point aligning "," to "le" leaves the
accumulator as it was, in `Evaluate` and in `EvaluateChart`. -/
theorem punctuation_point_emits_nothing_witness :
    (EvaluatePoint
        { freshFeature [','] with
          m_unrestricted := false, m_sourceContext := true, m_targetContext := true,
          m_ignorePunctuation := true }
        sampleSentence (oneWordHypothesis "," "le" 0 []) (0, 0) [("wt_a~b", 1)] =
        .ok [("wt_a~b", 1)] ∧
      EvaluateChartPoint
        { freshFeature [','] with
          m_unrestricted := false, m_sourceContext := true, m_targetContext := true,
          m_ignorePunctuation := true }
        (chartOf (oneWordHypothesis "," "le" 0 [])) (0, 0) [("wt_a~b", 1)] =
        .ok [("wt_a~b", 1)]) ∨
    ((terminal ",").factorString 0 = "" ∧
      EvaluatePoint
        { freshFeature [','] with
          m_unrestricted := false, m_sourceContext := true, m_targetContext := true,
          m_ignorePunctuation := true }
        sampleSentence (oneWordHypothesis "," "le" 0 []) (0, 0) [("wt_a~b", 1)] =
        .error .stringOutOfRange ∧
      EvaluateChartPoint
        { freshFeature [','] with
          m_unrestricted := false, m_sourceContext := true, m_targetContext := true,
          m_ignorePunctuation := true }
        (chartOf (oneWordHypothesis "," "le" 0 [])) (0, 0) [("wt_a~b", 1)] =
        .error .stringOutOfRange) :=
  punctuation_point_emits_nothing
    { freshFeature [','] with
      m_unrestricted := false, m_sourceContext := true, m_targetContext := true,
      m_ignorePunctuation := true }
    sampleSentence (oneWordHypothesis "," "le" 0 []) (chartOf (oneWordHypothesis "," "le" 0 []))
    (0, 0) (terminal ",") (terminal "le") [("wt_a~b", 1)] rfl rfl rfl rfl
    (Or.inl ⟨',', [], rfl, by decide⟩)

/-- C6, as the code has it: when the source path or the target path cannot be
opened, `Load` returns false, leaves the mode flag and the target vocabulary
set as they were, and changes nothing at all when it is the source path that
cannot be opened; when the source file opens and only the target path cannot
be opened, the source vocabulary set has already received the lines of the
source file (it holds what it held before and those lines), every other member
being unchanged. -/
theorem load_failure (fs : FileSystem) (filePathSource filePathTarget : String)
    (F : WordTranslationFeature)
    (hfail : fs filePathSource = none ∨ fs filePathTarget = none) :
    (Load fs filePathSource filePathTarget F).1 = false ∧
    (Load fs filePathSource filePathTarget F).2.m_unrestricted = F.m_unrestricted ∧
    (Load fs filePathSource filePathTarget F).2.m_vocabTarget = F.m_vocabTarget ∧
    (fs filePathSource = none → (Load fs filePathSource filePathTarget F).2 = F) ∧
    (∀ linesSource, fs filePathSource = some linesSource →
      (Load fs filePathSource filePathTarget F).2 =
        { F with m_vocabSource := insertLines linesSource F.m_vocabSource } ∧
      ∀ w, w ∈ (Load fs filePathSource filePathTarget F).2.m_vocabSource ↔
        w ∈ F.m_vocabSource ∨ w ∈ linesSource) := by
  cases hs : fs filePathSource with
  | none => simp [Load, hs]
  | some linesSource =>
    have ht : fs filePathTarget = none := by
      rcases hfail with h | h
      · rw [hs] at h; cases h
      · exact h
    have hL : Load fs filePathSource filePathTarget F =
        (false, { F with m_vocabSource := insertLines linesSource F.m_vocabSource }) := by
      simp only [Load, hs, ht]
    rw [hL]
    refine ⟨rfl, rfl, rfl, (fun h => by cases h), ?_⟩
    intro l hl
    cases hl
    exact ⟨rfl, fun w => mem_insertLines _ _ w⟩

/-- Witness for C6: the source file opens and the target path does not. -/
theorem load_failure_witness :
    (Load sampleFiles "source.vocab" "missing" (freshFeature [])).1 = false ∧
    (Load sampleFiles "source.vocab" "missing" (freshFeature [])).2.m_unrestricted =
      (freshFeature []).m_unrestricted ∧
    (Load sampleFiles "source.vocab" "missing" (freshFeature [])).2.m_vocabTarget =
      (freshFeature []).m_vocabTarget ∧
    (sampleFiles "source.vocab" = none →
      (Load sampleFiles "source.vocab" "missing" (freshFeature [])).2 = freshFeature []) ∧
    (∀ linesSource, sampleFiles "source.vocab" = some linesSource →
      (Load sampleFiles "source.vocab" "missing" (freshFeature [])).2 =
        { freshFeature [] with
          m_vocabSource := insertLines linesSource (freshFeature []).m_vocabSource } ∧
      ∀ w, w ∈ (Load sampleFiles "source.vocab" "missing" (freshFeature [])).2.m_vocabSource ↔
        w ∈ (freshFeature []).m_vocabSource ∨ w ∈ linesSource) :=
  load_failure sampleFiles "source.vocab" "missing" (freshFeature []) (Or.inr rfl)

/-- Counterexample to C6 as stated: the source file opens, the target path
cannot be opened, `Load` returns false, and the source vocabulary set, empty
before the call, holds "the" and "cat" after it. -/
theorem load_failure_populates_source :
    sampleFiles "source.vocab" = some ["the", "cat"] ∧
    sampleFiles "missing" = none ∧
    (freshFeature []).m_vocabSource = [] ∧
    (Load sampleFiles "source.vocab" "missing" (freshFeature [])).1 = false ∧
    "the" ∈ (Load sampleFiles "source.vocab" "missing" (freshFeature [])).2.m_vocabSource ∧
    "cat" ∈ (Load sampleFiles "source.vocab" "missing" (freshFeature [])).2.m_vocabSource := by
  refine ⟨rfl, rfl, rfl, rfl, ?_, ?_⟩ <;> decide

/-- C7, as the code has it: with punctuation filtering enabled, `Evaluate`
(and `EvaluateChart`) fails with an error on every alignment point that
reaches the punctuation test with an empty source word, or with an empty
target word after a source word that starts with a non-punctuation character:
the body of the loop throws `std::out_of_range` for that point and the call
ends in an error.  (A point whose source word starts with a punctuation
character is skipped before its target word is read.)  `Evaluate` also fails
when the source-context loop of a point that was not skipped meets an empty
word of the input sentence at a position other than the point's own, and when
the target-context loop meets an empty hypothesis word at an earlier target
position. -/
theorem empty_word_throws (F : WordTranslationFeature) (input : Sentence)
    (cur_hypo : Hypothesis) (chart : ChartHypothesis) (featureID : Int)
    (hip : F.m_ignorePunctuation = true) :
    (∀ pt ∈ cur_hypo.currTargetPhrase.alignmentInfo.points,
      readsEmptyWord F cur_hypo.currTargetPhrase pt →
      ∀ acc, EvaluatePoint F input cur_hypo pt acc = .error .stringOutOfRange ∧
        ∃ e, Evaluate F input cur_hypo acc = .error e) ∧
    (∀ pt ∈ chart.currTargetPhrase.alignmentInfo.terminalAlignments,
      readsEmptyWord F chart.currTargetPhrase pt →
      ∀ acc, EvaluateChartPoint F chart pt acc = .error .stringOutOfRange ∧
        ∃ e, EvaluateChart F chart featureID acc = .error e) ∧
    (∀ pt ∈ cur_hypo.currTargetPhrase.alignmentInfo.points, ∀ s t p w,
      resolveAlignmentPoint F cur_hypo.currTargetPhrase pt = .ok (some (s, t)) →
      F.m_sourceContext = true →
      Phrase.GetWord input p = some w → p ≠ cur_hypo.currSourceWordsRangeStart + pt.1 →
      w.factorString F.m_factorTypeSource = "" →
      ∀ acc, ∃ e, Evaluate F input cur_hypo acc = .error e) ∧
    (∀ pt ∈ cur_hypo.currTargetPhrase.alignmentInfo.points, ∀ s t p w,
      resolveAlignmentPoint F cur_hypo.currTargetPhrase pt = .ok (some (s, t)) →
      F.m_targetContext = true →
      cur_hypo.GetWord p = w → p < cur_hypo.currTargetWordsRangeStart + pt.2 →
      w.factorString F.m_factorTypeTarget = "" →
      ∀ acc, ∃ e, Evaluate F input cur_hypo acc = .error e) := by
  refine ⟨?_, ?_, ?_, ?_⟩
  · intro pt hmem hr acc
    have hres := resolveAlignmentPoint_readsEmptyWord F _ pt hip hr
    exact ⟨EvaluatePoint_of_error F input cur_hypo pt acc _ hres,
      forEach_error_of_mem _ _ pt hmem
        (fun a => ⟨_, EvaluatePoint_of_error F input cur_hypo pt a _ hres⟩) acc⟩
  · intro pt hmem hr acc
    have hres := resolveAlignmentPoint_readsEmptyWord F _ pt hip hr
    exact ⟨EvaluateChartPoint_of_error F chart pt acc _ hres,
      forEach_error_of_mem _ _ pt hmem
        (fun a => ⟨_, EvaluateChartPoint_of_error F chart pt a _ hres⟩) acc⟩
  · intro pt hmem s t p w hres hsc hw hpg he acc
    exact forEach_error_of_mem _ _ pt hmem
      (fun a => EvaluatePoint_source_context_error F input cur_hypo pt s t a hres hsc
        (fun a2 => sourceContextStep_empty F input _ s t p w a2 hip hpg hw he)) acc
  · intro pt hmem s t p w hres htc hw hpg he acc
    subst hw
    exact forEach_error_of_mem _ _ pt hmem
      (fun a => EvaluatePoint_target_context_error F input cur_hypo pt s t a hres htc
        (fun a2 => targetContextStep_empty F cur_hypo _ s t p a2 hip hpg he)) acc

/-- Counterexample to C7 as stated: with punctuation filtering on the comma,
the point aligning "," to the empty target word is skipped in silence;
`Evaluate` and `EvaluateChart` return normally with the accumulator unchanged. -/
theorem empty_target_after_punctuation_is_skipped :
    (terminal "").factorString 0 = "" ∧
    Evaluate { freshFeature [','] with m_ignorePunctuation := true } sampleSentence
      (oneWordHypothesis "," "" 0 []) [] = .ok [] ∧
    EvaluateChart { freshFeature [','] with m_ignorePunctuation := true }
      (chartOf (oneWordHypothesis "," "" 0 [])) 0 [] = .ok [] :=
  ⟨rfl, rfl, rfl⟩

/-- Witness for C7: an empty source word; in the chart path an empty target
word after the source word "a"; an empty word at position 1 of the input
sentence met by the source-context loop; an empty placed target word met by
the target-context loop. -/
theorem empty_word_throws_witness :
    (∃ e, Evaluate filteringFeature sampleSentence (oneWordHypothesis "" "le" 0 []) [] =
      .error e) ∧
    (∃ e, EvaluateChart filteringFeature (chartOf (oneWordHypothesis "a" "" 0 [])) 0 [] =
      .error e) ∧
    (∃ e, Evaluate filteringFeature (["the", "", "sat"].map terminal)
      (oneWordHypothesis "the" "le" 0 []) [] = .error e) ∧
    (∃ e, Evaluate filteringFeature sampleSentence (oneWordHypothesis "cat" "chat" 1 [""]) [] =
      .error e) :=
  ⟨((empty_word_throws filteringFeature sampleSentence (oneWordHypothesis "" "le" 0 [])
      (chartOf (oneWordHypothesis "" "le" 0 [])) 0 rfl).1 (0, 0) (List.mem_cons_self _ _)
      ⟨terminal "", terminal "le", rfl, rfl, rfl, rfl, Or.inl rfl⟩ []).2,
   ((empty_word_throws filteringFeature sampleSentence (oneWordHypothesis "a" "" 0 [])
      (chartOf (oneWordHypothesis "a" "" 0 [])) 0 rfl).2.1 (0, 0) (List.mem_cons_self _ _)
      ⟨terminal "a", terminal "", rfl, rfl, rfl, rfl,
        Or.inr ⟨⟨'a', [], rfl, by decide⟩, rfl⟩⟩ []).2,
   (empty_word_throws filteringFeature (["the", "", "sat"].map terminal)
      (oneWordHypothesis "the" "le" 0 []) (chartOf (oneWordHypothesis "the" "le" 0 [])) 0
      rfl).2.2.1 (0, 0) (List.mem_cons_self _ _) "the" "le" 1 (terminal "") rfl rfl rfl
      (by decide) rfl [],
   (empty_word_throws filteringFeature sampleSentence (oneWordHypothesis "cat" "chat" 1 [""])
      (chartOf (oneWordHypothesis "cat" "chat" 1 [""])) 0 rfl).2.2.2 (0, 0)
      (List.mem_cons_self _ _) "cat" "chat" 0 (terminal "") rfl rfl rfl (by decide) rfl []⟩

/-- C8: `EvaluateChart` gives the same result whatever the source-context and
target-context flags are, and whatever the full alignment is as long as the
terminal alignments are the same; when it returns, it has appended to the
accumulator the simple features "wt_<source>~<target>", each with amount 1, of
a sublist of the terminal alignment links, in the order of the links, hence
at most one feature per link; with simple mode disabled it appends nothing. -/
theorem chart_simple_mode_only (F : WordTranslationFeature) (chart : ChartHypothesis)
    (featureID : Int) (acc : ScoreComponentCollection) :
    (∀ sc tc : Bool,
      EvaluateChart { F with m_sourceContext := sc, m_targetContext := tc } chart featureID acc =
        EvaluateChart F chart featureID acc) ∧
    (∀ points : List (Nat × Nat),
      EvaluateChart F
        { currTargetPhrase :=
            { chart.currTargetPhrase with
              alignmentInfo :=
                { points := points,
                  terminalAlignments :=
                    chart.currTargetPhrase.alignmentInfo.terminalAlignments } } }
        featureID acc =
        EvaluateChart F chart featureID acc) ∧
    (∀ acc', EvaluateChart F chart featureID acc = .ok acc' →
      ∃ links : List (Nat × Nat),
        links.Sublist chart.currTargetPhrase.alignmentInfo.terminalAlignments ∧
        links.length ≤ chart.currTargetPhrase.alignmentInfo.terminalAlignments.length ∧
        (F.m_simple = false → links = []) ∧
        acc' = acc ++ links.map (fun pt =>
          ("wt_" ++
            restrictWord F.m_unrestricted F.m_vocabSource
              (triggerAt chart.currTargetPhrase.sourcePhrase F.m_factorTypeSource pt.1) ++ "~" ++
            restrictWord F.m_unrestricted F.m_vocabTarget
              (triggerAt chart.currTargetPhrase.words F.m_factorTypeTarget pt.2), 1))) := by
  refine ⟨fun sc tc => ?_, fun points => ?_, fun acc' h => ?_⟩
  · have hbody : EvaluateChartPoint
        { F with m_sourceContext := sc, m_targetContext := tc } chart =
        EvaluateChartPoint F chart := by
      funext pt a; rfl
    simp only [EvaluateChart, hbody]
  · have hbody : EvaluateChartPoint F
        { currTargetPhrase :=
            { chart.currTargetPhrase with
              alignmentInfo :=
                { points := points,
                  terminalAlignments :=
                    chart.currTargetPhrase.alignmentInfo.terminalAlignments } } } =
        EvaluateChartPoint F chart := by
      funext pt a; rfl
    simp only [EvaluateChart, hbody]
  · obtain ⟨links, hsub, hP, hacc⟩ :=
      forEach_ok_sublist (EvaluateChartPoint F chart) (fun _ => F.m_simple = true)
        (simpleFeature F chart.currTargetPhrase) _
        (fun pt _ a a' hb => EvaluateChartPoint_shape F chart pt a a' hb) acc acc' h
    refine ⟨links, hsub, hsub.length_le, fun hsimple => ?_, hacc⟩
    cases links with
    | nil => rfl
    | cons l ls =>
      have := hP l (List.mem_cons_self l ls)
      rw [hsimple] at this
      cases this

/-- Witness for C8: in restricted mode with both context flags on, the chart
hypothesis aligning "sat" to "assis" gets the one simple feature
"wt_OTHER~OTHER" of its one terminal link. -/
theorem chart_simple_mode_only_witness :
    ∃ links : List (Nat × Nat),
      links.Sublist [(0, 0)] ∧ links.length ≤ 1 ∧
      (restrictedFeature.m_simple = false → links = []) ∧
      [("wt_OTHER~OTHER", (1 : Int))] = [] ++ links.map (fun pt =>
        ("wt_" ++
          restrictWord false ["the", "cat"] (triggerAt [terminal "sat"] 0 pt.1) ++ "~" ++
          restrictWord false ["le", "chat"] (triggerAt [terminal "assis"] 0 pt.2), 1)) :=
  (chart_simple_mode_only restrictedFeature (chartOf (oneWordHypothesis "sat" "assis" 2 [])) 0
    []).2.2 [("wt_OTHER~OTHER", 1)] rfl

/-- C9: when the source-context step of `Evaluate` for an alignment point at
global source position `g` returns, what it has appended after the boundary
feature is one context feature for each position `p` of an ascending list of
distinct sentence positions that does not hold `g`: no context feature is
emitted for `p = g`; for `p < g` the name is
"wt_<context>,<source>~<target>" and otherwise, that is for `p > g`, it is
"wt_<source>,<context>~<target>", so that the two source-side words stand in
ascending sentence position. -/
theorem source_context_feature_names (F : WordTranslationFeature) (input : Sentence)
    (g : Nat) (s t : String) (acc acc' : ScoreComponentCollection)
    (h : sourceContextStep F input g s t acc = .ok acc') :
    ∃ ps : List Nat,
      ps.Sublist (List.range input.length) ∧ g ∉ ps ∧
      acc' = acc ++ (if g = 0 then [("wt_" ++ "<s>," ++ s ++ "~" ++ t, 1)] else []) ++
        ps.map (fun p =>
          (if p < g then
              "wt_" ++ triggerAt input F.m_factorTypeSource p ++ "," ++ s ++ "~" ++ t
            else
              "wt_" ++ s ++ "," ++ triggerAt input F.m_factorTypeSource p ++ "~" ++ t, 1)) := by
  unfold sourceContextStep at h
  obtain ⟨ps, hsub, hP, hacc⟩ :=
    forEach_ok_sublist (sourceContextIteration F input g s t) (fun p => p ≠ g)
      (sourceContextFeature input F.m_factorTypeSource g s t) _
      (fun p _ a a' hb => sourceContextIteration_shape F input g s t p a a' hb) _ acc' h
  refine ⟨ps, hsub, fun hmem => hP g hmem rfl, ?_⟩
  rw [hacc]
  congr 1
  unfold SparsePlusEquals
  split <;> simp

/-- Witness for C9: on "the cat sat" with the point at global source position
1, the context word "the" stands before "cat" and the context word "sat"
after it. -/
theorem source_context_feature_names_witness :
    ∃ ps : List Nat,
      ps.Sublist (List.range 3) ∧ 1 ∉ ps ∧
      [("wt_the,cat~chat", (1 : Int)), ("wt_cat,sat~chat", 1)] =
        [] ++ (if 1 = 0 then [("wt_" ++ "<s>," ++ "cat" ++ "~" ++ "chat", 1)] else []) ++
        ps.map (fun p =>
          (if p < 1 then
              "wt_" ++ triggerAt sampleSentence 0 p ++ "," ++ "cat" ++ "~" ++ "chat"
            else
              "wt_" ++ "cat" ++ "," ++ triggerAt sampleSentence 0 p ++ "~" ++ "chat", 1)) :=
  source_context_feature_names filteringFeature sampleSentence 1 "cat" "chat" []
    [("wt_the,cat~chat", 1), ("wt_cat,sat~chat", 1)] rfl

/-- C10: after `Load` has read the source vocabulary "the", "cat" and the
target vocabulary "le", "chat" into a fresh feature object (simple mode
only), the filter is restricted, and on the input sentence "the cat sat"
`Evaluate` adds to any accumulator exactly one call
`SparsePlusEquals("wt_the~le", 1)` for the hypothesis aligning "the" to "le",
and exactly one call `SparsePlusEquals("wt_OTHER~OTHER", 1)` for the
hypothesis aligning "sat" to "assis". -/
theorem end_to_end_example (punctuation : List Char) (acc : ScoreComponentCollection) :
    (Load sampleFiles "source.vocab" "target.vocab" (freshFeature punctuation)).1 = true ∧
    (Load sampleFiles "source.vocab" "target.vocab"
      (freshFeature punctuation)).2.m_unrestricted = false ∧
    (∀ w, w ∈ (Load sampleFiles "source.vocab" "target.vocab"
      (freshFeature punctuation)).2.m_vocabSource ↔ w = "the" ∨ w = "cat") ∧
    (∀ w, w ∈ (Load sampleFiles "source.vocab" "target.vocab"
      (freshFeature punctuation)).2.m_vocabTarget ↔ w = "le" ∨ w = "chat") ∧
    Evaluate (Load sampleFiles "source.vocab" "target.vocab" (freshFeature punctuation)).2
      sampleSentence (oneWordHypothesis "the" "le" 0 []) acc =
      .ok (acc ++ [("wt_the~le", 1)]) ∧
    Evaluate (Load sampleFiles "source.vocab" "target.vocab" (freshFeature punctuation)).2
      sampleSentence (oneWordHypothesis "sat" "assis" 2 ["le", "chat"]) acc =
      .ok (acc ++ [("wt_OTHER~OTHER", 1)]) := by
  refine ⟨rfl, rfl, fun w => ?_, fun w => ?_, ?_, ?_⟩
  · show w ∈ ["cat", "the"] ↔ _
    simp only [List.mem_cons, List.mem_nil_iff, or_false]
    tauto
  · show w ∈ ["chat", "le"] ↔ _
    simp only [List.mem_cons, List.mem_nil_iff, or_false]
    tauto
  · exact Evaluate_single_simple _ sampleSentence (oneWordHypothesis "the" "le" 0 []) (0, 0)
      (terminal "the") (terminal "le") acc rfl rfl rfl rfl rfl rfl rfl rfl rfl
  · exact Evaluate_single_simple _ sampleSentence
      (oneWordHypothesis "sat" "assis" 2 ["le", "chat"]) (0, 0)
      (terminal "sat") (terminal "assis") acc rfl rfl rfl rfl rfl rfl rfl rfl rfl

/-- C16: whenever both the source path and the target path can be opened,
`Load` returns true and leaves the filter in restricted mode; afterwards a
word is a member of the source (target) vocabulary set if and only if it was a
member before the call or is one of the lines of the source (target) file, so
that starting from empty sets each set holds exactly the lines of its file.
No other data member is changed. -/
theorem load_success (fs : FileSystem) (filePathSource filePathTarget : String)
    (F : WordTranslationFeature) (linesSource linesTarget : List String)
    (hs : fs filePathSource = some linesSource) (ht : fs filePathTarget = some linesTarget) :
    (Load fs filePathSource filePathTarget F).1 = true ∧
    (Load fs filePathSource filePathTarget F).2.m_unrestricted = false ∧
    (∀ w, w ∈ (Load fs filePathSource filePathTarget F).2.m_vocabSource ↔
      w ∈ F.m_vocabSource ∨ w ∈ linesSource) ∧
    (∀ w, w ∈ (Load fs filePathSource filePathTarget F).2.m_vocabTarget ↔
      w ∈ F.m_vocabTarget ∨ w ∈ linesTarget) ∧
    (F.m_vocabSource = [] → F.m_vocabTarget = [] →
      ∀ w, (w ∈ (Load fs filePathSource filePathTarget F).2.m_vocabSource ↔ w ∈ linesSource) ∧
        (w ∈ (Load fs filePathSource filePathTarget F).2.m_vocabTarget ↔ w ∈ linesTarget)) ∧
    (Load fs filePathSource filePathTarget F).2 =
      { F with
        m_vocabSource := (Load fs filePathSource filePathTarget F).2.m_vocabSource,
        m_vocabTarget := (Load fs filePathSource filePathTarget F).2.m_vocabTarget,
        m_unrestricted := false } := by
  have hL : Load fs filePathSource filePathTarget F =
      (true, { F with
        m_vocabSource := insertLines linesSource F.m_vocabSource,
        m_vocabTarget := insertLines linesTarget F.m_vocabTarget,
        m_unrestricted := false }) := by
    simp only [Load, hs, ht]
  rw [hL]
  refine ⟨rfl, rfl, fun w => mem_insertLines _ _ w, fun w => mem_insertLines _ _ w, ?_, rfl⟩
  intro hes het w
  constructor
  · show w ∈ insertLines linesSource F.m_vocabSource ↔ _
    rw [mem_insertLines, hes]; simp
  · show w ∈ insertLines linesTarget F.m_vocabTarget ↔ _
    rw [mem_insertLines, het]; simp

/-- Witness for C16: the two sample vocabulary files are read into a fresh
feature object. -/
theorem load_success_witness :
    (Load sampleFiles "source.vocab" "target.vocab" (freshFeature [])).1 = true ∧
    (Load sampleFiles "source.vocab" "target.vocab" (freshFeature [])).2.m_unrestricted = false ∧
    (∀ w, w ∈ (Load sampleFiles "source.vocab" "target.vocab" (freshFeature [])).2.m_vocabSource ↔
      w ∈ (freshFeature []).m_vocabSource ∨ w ∈ ["the", "cat"]) ∧
    (∀ w, w ∈ (Load sampleFiles "source.vocab" "target.vocab" (freshFeature [])).2.m_vocabTarget ↔
      w ∈ (freshFeature []).m_vocabTarget ∨ w ∈ ["le", "chat"]) ∧
    ((freshFeature []).m_vocabSource = [] → (freshFeature []).m_vocabTarget = [] →
      ∀ w,
        (w ∈ (Load sampleFiles "source.vocab" "target.vocab" (freshFeature [])).2.m_vocabSource ↔
          w ∈ ["the", "cat"]) ∧
        (w ∈ (Load sampleFiles "source.vocab" "target.vocab" (freshFeature [])).2.m_vocabTarget ↔
          w ∈ ["le", "chat"])) ∧
    (Load sampleFiles "source.vocab" "target.vocab" (freshFeature [])).2 =
      { freshFeature [] with
        m_vocabSource :=
          (Load sampleFiles "source.vocab" "target.vocab" (freshFeature [])).2.m_vocabSource,
        m_vocabTarget :=
          (Load sampleFiles "source.vocab" "target.vocab" (freshFeature [])).2.m_vocabTarget,
        m_unrestricted := false } :=
  load_success sampleFiles "source.vocab" "target.vocab" (freshFeature []) ["the", "cat"]
    ["le", "chat"] rfl rfl

/-- C17: for every filter configuration, target phrase (target words and
source phrase) and list of alignment points, `EvaluateChart` run over that
list as terminal alignments gives exactly the result that `Evaluate`, with
source-context and target-context modes both disabled, gives over the same
list as alignment: the same sequence of `SparsePlusEquals(name, 1)` calls on
the accumulator, or the same failure.  The input sentence, the word ranges and
the words already placed play no part. -/
theorem chart_is_linear_simple_path (F : WordTranslationFeature) (words sourcePhrase : Phrase)
    (links otherPoints otherTerminals : List (Nat × Nat)) (input : Sentence)
    (sourceStart targetStart : Nat) (placed : Nat → Word) (featureID : Int)
    (acc : ScoreComponentCollection) :
    EvaluateChart F
      { currTargetPhrase :=
          { words := words, sourcePhrase := sourcePhrase,
            alignmentInfo := { points := otherPoints, terminalAlignments := links } } }
      featureID acc =
    Evaluate { F with m_sourceContext := false, m_targetContext := false } input
      { currTargetPhrase :=
          { words := words, sourcePhrase := sourcePhrase,
            alignmentInfo := { points := links, terminalAlignments := otherTerminals } },
        currSourceWordsRangeStart := sourceStart,
        currTargetWordsRangeStart := targetStart,
        GetWord := placed }
      acc := by
  have hflags : EvaluateChartPoint F
      { currTargetPhrase :=
          { words := words, sourcePhrase := sourcePhrase,
            alignmentInfo := { points := otherPoints, terminalAlignments := links } } } =
      EvaluateChartPoint { F with m_sourceContext := false, m_targetContext := false }
      { currTargetPhrase :=
          { words := words, sourcePhrase := sourcePhrase,
            alignmentInfo := { points := otherPoints, terminalAlignments := links } } } := by
    funext pt a; rfl
  have hbody : EvaluateChartPoint { F with m_sourceContext := false, m_targetContext := false }
      { currTargetPhrase :=
          { words := words, sourcePhrase := sourcePhrase,
            alignmentInfo := { points := otherPoints, terminalAlignments := links } } } =
      EvaluatePoint { F with m_sourceContext := false, m_targetContext := false } input
      { currTargetPhrase :=
          { words := words, sourcePhrase := sourcePhrase,
            alignmentInfo := { points := links, terminalAlignments := otherTerminals } },
        currSourceWordsRangeStart := sourceStart,
        currTargetWordsRangeStart := targetStart,
        GetWord := placed } := by
    funext pt a
    exact (EvaluatePoint_eq_EvaluateChartPoint _ input _ _ pt a rfl rfl rfl rfl).symm
  unfold EvaluateChart Evaluate
  rw [hflags, hbody]

/-- C14: in restricted mode with punctuation filtering disabled, `Evaluate` on
an alignment within the phrases appends, for every alignment point that is not
skipped as a non-terminal, entries built from the point's own two words, each
replaced by "OTHER" when it is not a member of its side's vocabulary set: the
simple entry; in source-context mode the boundary feature when the global
source position `g` is 0 and then the context feature of exactly those
positions `p ≠ g` of the input sentence whose word is a member of the source
vocabulary set; in target-context mode the boundary feature when the global
target position is 0 and then the context feature of exactly those earlier
target positions whose hypothesis word is a member of the target vocabulary
set.  The name of a context feature holds the context word itself: an
out-of-vocabulary context word gives no feature and is never replaced by
"OTHER". -/
theorem context_words_must_be_in_vocabulary (F : WordTranslationFeature) (input : Sentence)
    (cur_hypo : Hypothesis) (acc : ScoreComponentCollection)
    (hr : F.m_unrestricted = false) (hp : F.m_ignorePunctuation = false)
    (hrange : pointsInRange cur_hypo.currTargetPhrase
      cur_hypo.currTargetPhrase.alignmentInfo.points) :
    Evaluate F input cur_hypo acc =
      .ok (acc ++ (cur_hypo.currTargetPhrase.alignmentInfo.points.map (fun pt =>
        if pointSkipped F cur_hypo.currTargetPhrase pt then []
        else
          simpleEmission F
            (orOther F.m_vocabSource (sourceWordAt F cur_hypo.currTargetPhrase pt))
            (orOther F.m_vocabTarget (targetWordAt F cur_hypo.currTargetPhrase pt)) ++
          (if F.m_sourceContext then
            (if cur_hypo.currSourceWordsRangeStart + pt.1 = 0 then
              [("wt_" ++ "<s>," ++
                orOther F.m_vocabSource (sourceWordAt F cur_hypo.currTargetPhrase pt) ++ "~" ++
                orOther F.m_vocabTarget (targetWordAt F cur_hypo.currTargetPhrase pt), 1)]
            else []) ++
            ((List.range input.length).filter (fun p =>
                decide (p ≠ cur_hypo.currSourceWordsRangeStart + pt.1 ∧
                  triggerAt input F.m_factorTypeSource p ∈ F.m_vocabSource))).map (fun p =>
              (if p < cur_hypo.currSourceWordsRangeStart + pt.1 then
                  "wt_" ++ triggerAt input F.m_factorTypeSource p ++ "," ++
                    orOther F.m_vocabSource (sourceWordAt F cur_hypo.currTargetPhrase pt) ++
                    "~" ++
                    orOther F.m_vocabTarget (targetWordAt F cur_hypo.currTargetPhrase pt)
                else
                  "wt_" ++
                    orOther F.m_vocabSource (sourceWordAt F cur_hypo.currTargetPhrase pt) ++
                    "," ++ triggerAt input F.m_factorTypeSource p ++ "~" ++
                    orOther F.m_vocabTarget (targetWordAt F cur_hypo.currTargetPhrase pt), 1))
          else []) ++
          (if F.m_targetContext then
            (if cur_hypo.currTargetWordsRangeStart + pt.2 = 0 then
              [("wt_" ++
                orOther F.m_vocabSource (sourceWordAt F cur_hypo.currTargetPhrase pt) ++ "~" ++
                "<s>," ++
                orOther F.m_vocabTarget (targetWordAt F cur_hypo.currTargetPhrase pt), 1)]
            else []) ++
            ((List.range (cur_hypo.currTargetWordsRangeStart + pt.2)).filter (fun p =>
                decide ((cur_hypo.GetWord p).factorString F.m_factorTypeTarget ∈
                  F.m_vocabTarget))).map (fun p =>
              ("wt_" ++
                orOther F.m_vocabSource (sourceWordAt F cur_hypo.currTargetPhrase pt) ++ "~" ++
                (cur_hypo.GetWord p).factorString F.m_factorTypeTarget ++ "," ++
                orOther F.m_vocabTarget (targetWordAt F cur_hypo.currTargetPhrase pt), 1))
          else []))).flatten) := by
  rw [Evaluate_noPunct F input cur_hypo acc hp hrange]
  have hw : ∀ vocab word, restrictWord false vocab word = orOther vocab word := by
    intro vocab word
    simp [restrictWord, orOther]
  have hf : ∀ g, (fun p => decide (p ≠ g) &&
      decide (triggerAt input F.m_factorTypeSource p ∈ F.m_vocabSource)) =
      (fun p => decide (p ≠ g ∧ triggerAt input F.m_factorTypeSource p ∈ F.m_vocabSource)) := by
    intro g
    funext p
    exact (Bool.decide_and _ _).symm
  simp only [hr, hw, sourceContextEmissions, targetContextEmissions, Bool.false_or, hf,
    sourceBoundary, targetBoundary, targetContextFeature]
  rfl

/-- Witness for C14: with the source vocabulary "the", "cat" and the target
vocabulary "le", "chat", in every feature mode, the hypothesis aligning "sat"
to "chat" after "le petit" gets its own source word replaced by "OTHER", a
source context feature for "the" and for "cat", a target context feature for
"le" and none for "petit". -/
theorem context_words_must_be_in_vocabulary_witness :
    Evaluate restrictedFeature sampleSentence
      (oneWordHypothesis "sat" "chat" 2 ["le", "petit"]) [] =
      .ok [("wt_OTHER~chat", 1), ("wt_the,OTHER~chat", 1), ("wt_cat,OTHER~chat", 1),
        ("wt_OTHER~le,chat", 1)] :=
  context_words_must_be_in_vocabulary restrictedFeature sampleSentence
    (oneWordHypothesis "sat" "chat" 2 ["le", "petit"]) [] rfl rfl
    (fun pt hmem => List.mem_singleton.mp hmem ▸ ⟨by decide, by decide⟩)

/-- C11, as the code has it: when `Evaluate` returns, what it did to the
accumulator is a sequence of calls `SparsePlusEquals(name, 1)` that does not
depend on the accumulator it was given.  Whatever the values held before and
whatever the arithmetic of the accumulator, the value of every feature name
after the call is its value before the call with 1 added to it once for each
emission of that name, one addition after the other, so that repeated
emissions add up and never overwrite; the value of a name that was not emitted
is unchanged.  In an arithmetic where adding 1 `n` times is adding `n`, the
value after the call is the value before plus the number of emissions. -/
theorem evaluate_increments_are_additive {V : Type} (plus : V → Int → V)
    (values : String → V) (F : WordTranslationFeature) (input : Sentence)
    (cur_hypo : Hypothesis) (acc acc' : ScoreComponentCollection)
    (h : Evaluate F input cur_hypo acc = .ok acc') :
    ∃ emitted : List (String × Int),
      (∀ a, Evaluate F input cur_hypo a = .ok (a ++ emitted)) ∧
      acc' = acc ++ emitted ∧
      (∀ x ∈ emitted, x.2 = 1) ∧
      ∀ name,
        applyCalls plus values acc' name =
          (fun v => plus v 1)^[(emitted.map Prod.fst).count name]
            (applyCalls plus values acc name) ∧
        (name ∉ emitted.map Prod.fst →
          applyCalls plus values acc' name = applyCalls plus values acc name) ∧
        ((∀ (v : V) (n : Nat), (fun v => plus v 1)^[n] v = plus v n) →
          applyCalls plus values acc' name =
            plus (applyCalls plus values acc name) ((emitted.map Prod.fst).count name)) := by
  rcases EmitsOnes_Evaluate F input cur_hypo with ⟨e, he⟩ | ⟨l, hl, hf⟩
  · rw [he acc] at h; cases h
  · have hacc : acc' = acc ++ l := by
      rw [hf acc] at h
      simp only [Except.ok.injEq] at h
      exact h.symm
    refine ⟨l, hf, hacc, hl, fun name => ?_⟩
    have hv : applyCalls plus values acc' name =
        (fun v => plus v 1)^[(l.map Prod.fst).count name] (applyCalls plus values acc name) := by
      rw [hacc, applyCalls_append, applyCalls_ones plus _ l name hl]
    refine ⟨hv, fun hnot => ?_, fun hexact => ?_⟩
    · rw [hv, List.count_eq_zero_of_not_mem hnot]
      rfl
    · rw [hv, hexact]

/-- Witness for C11: the hypothesis aligning "the" to "le" twice emits the
name "wt_the~le" twice; on an accumulator of floats that holds 16777216 for
every name, 1 is added to the value of that name twice. -/
theorem evaluate_increments_are_additive_witness :
    ∃ emitted : List (String × Int),
      (∀ a, Evaluate (freshFeature []) (["the", "the"].map terminal) twiceTheHypothesis a =
        .ok (a ++ emitted)) ∧
      [("wt_the~le", (1 : Int)), ("wt_the~le", 1)] = [] ++ emitted ∧
      (∀ x ∈ emitted, x.2 = 1) ∧
      ∀ name,
        applyCalls float32Plus (fun _ => 16777216) [("wt_the~le", 1), ("wt_the~le", 1)] name =
          (fun v => float32Plus v 1)^[(emitted.map Prod.fst).count name]
            (applyCalls float32Plus (fun _ => 16777216) [] name) ∧
        (name ∉ emitted.map Prod.fst →
          applyCalls float32Plus (fun _ => 16777216) [("wt_the~le", 1), ("wt_the~le", 1)] name =
            applyCalls float32Plus (fun _ => 16777216) [] name) ∧
        ((∀ (v : Int) (n : Nat), (fun v => float32Plus v 1)^[n] v = float32Plus v n) →
          applyCalls float32Plus (fun _ => 16777216) [("wt_the~le", 1), ("wt_the~le", 1)] name =
            float32Plus (applyCalls float32Plus (fun _ => 16777216) [] name)
              ((emitted.map Prod.fst).count name)) :=
  evaluate_increments_are_additive float32Plus (fun _ => 16777216) (freshFeature [])
    (["the", "the"].map terminal) twiceTheHypothesis []
    [("wt_the~le", 1), ("wt_the~le", 1)] rfl

/-- Counterexample to C11 as stated: the hypothesis aligning "the" to "le"
twice emits the name "wt_the~le" twice.  On an accumulator of floats that holds
16777216 (2^24) for that name, adding 1 rounds back to 16777216 each time, so
the value after `Evaluate` is 16777216, whereas the value before plus the
number of emissions, 16777216 + 2, is the float 16777218. -/
theorem float_increments_fall_short_of_the_count :
    Evaluate (freshFeature []) (["the", "the"].map terminal) twiceTheHypothesis [] =
      .ok [("wt_the~le", 1), ("wt_the~le", 1)] ∧
    float32Plus 16777216 1 = 16777216 ∧
    applyCalls float32Plus (fun _ => 16777216) [("wt_the~le", 1), ("wt_the~le", 1)]
      "wt_the~le" = 16777216 ∧
    float32Plus 16777216 2 = 16777218 := by
  refine ⟨rfl, by decide, by decide, by decide⟩

/-- C15, the code at the failing input: with source factor index 1 and target
factor index 0, the alignment point whose target word is the non-terminal "X"
is not skipped; `Evaluate` emits the simple feature "wt_chat~X" for it,
because line 68 tests `m_factorTypeSource == 0` for the target word. -/
theorem nonterminal_target_not_skipped :
    mixedFactorFeature.m_factorTypeTarget = 0 ∧
    nonTerminalTargetHypothesis.currTargetPhrase.words.GetWord 0 = some (nonTerminal "X") ∧
    (nonTerminal "X").isNonTerminal = true ∧
    Evaluate mixedFactorFeature sampleSentence nonTerminalTargetHypothesis [] =
      .ok [("wt_chat~X", 1)] :=
  ⟨rfl, rfl, rfl, rfl⟩

/-- C19: in simple mode the name built by lines 92-98 determines the word pair
as long as the source words hold no tilde: if the simple step makes the same
call for the pairs `(s1, t1)` and `(s2, t2)`, or the two names
`"wt_" ++ s ++ "~" ++ t` are equal, and neither `s1` nor `s2` contains the
character tilde, then `s1 = s2` and `t1 = t2`.  Without that condition two
different pairs give the same name: "a~b" with "c", and "a" with "b~c". -/
theorem simple_feature_name_injective (F : WordTranslationFeature)
    (hsimple : F.m_simple = true) :
    (∀ (s1 t1 s2 t2 : String) (acc : ScoreComponentCollection),
      '~' ∉ s1.data → '~' ∉ s2.data →
      (simpleStep F s1 t1 acc = simpleStep F s2 t2 acc ∨
        "wt_" ++ s1 ++ "~" ++ t1 = "wt_" ++ s2 ++ "~" ++ t2) →
      s1 = s2 ∧ t1 = t2) ∧
    (("a~b", "c") ≠ (("a", "b~c") : String × String) ∧
      "wt_" ++ "a~b" ++ "~" ++ "c" = "wt_" ++ "a" ++ "~" ++ "b~c" ∧
      ∀ acc, simpleStep F "a~b" "c" acc = simpleStep F "a" "b~c" acc) := by
  refine ⟨?_, by decide, by decide, ?_⟩
  · intro s1 t1 s2 t2 acc h1 h2 h
    rcases h with h | h
    · simp only [simpleStep, hsimple, if_true, SparsePlusEquals] at h
      have h3 := List.append_cancel_left h
      simp only [List.cons.injEq, Prod.mk.injEq, and_true] at h3
      exact simple_name_inj s1 t1 s2 t2 h1 h2 h3
    · exact simple_name_inj s1 t1 s2 t2 h1 h2 h
  · intro acc
    simp only [simpleStep, hsimple, if_true]
    rfl

/-- Witness for C19: a fresh feature object is in simple mode. -/
theorem simple_feature_name_injective_witness :
    (∀ (s1 t1 s2 t2 : String) (acc : ScoreComponentCollection),
      '~' ∉ s1.data → '~' ∉ s2.data →
      (simpleStep (freshFeature []) s1 t1 acc = simpleStep (freshFeature []) s2 t2 acc ∨
        "wt_" ++ s1 ++ "~" ++ t1 = "wt_" ++ s2 ++ "~" ++ t2) →
      s1 = s2 ∧ t1 = t2) ∧
    (("a~b", "c") ≠ (("a", "b~c") : String × String) ∧
      "wt_" ++ "a~b" ++ "~" ++ "c" = "wt_" ++ "a" ++ "~" ++ "b~c" ∧
      ∀ acc, simpleStep (freshFeature []) "a~b" "c" acc =
        simpleStep (freshFeature []) "a" "b~c" acc) :=
  simple_feature_name_injective (freshFeature []) rfl

/-- C18: in restricted mode the pair of words that lines 62-88 hand to the
simple step is made of a member of the source vocabulary set or "OTHER" and a
member of the target vocabulary set or "OTHER", and the simple step emits at
most the name `"wt_" ++ s ++ "~" ++ t` for it; every name emitted by
`EvaluateChart`, and by `Evaluate` when only simple-mode features are emitted
(both context modes off), is therefore one of the names built from such pairs,
and there are at most (|Vs|+1)·(|Vt|+1) of those names, whatever the
hypotheses are. -/
theorem restricted_simple_names_bounded (F : WordTranslationFeature)
    (hr : F.m_unrestricted = false) :
    (∀ (tp : TargetPhrase) (pt : Nat × Nat) (s t : String),
      resolveAlignmentPoint F tp pt = .ok (some (s, t)) →
      (s ∈ F.m_vocabSource ∨ s = "OTHER") ∧ (t ∈ F.m_vocabTarget ∨ t = "OTHER") ∧
      "wt_" ++ s ++ "~" ++ t ∈ restrictedSimpleNames F ∧
      ∀ acc, simpleStep F s t acc = acc ∨
        simpleStep F s t acc = acc ++ [("wt_" ++ s ++ "~" ++ t, 1)]) ∧
    (∀ (chart : ChartHypothesis) (featureID : Int) (acc acc' : ScoreComponentCollection),
      EvaluateChart F chart featureID acc = .ok acc' →
      ∃ emitted : List (String × Int), acc' = acc ++ emitted ∧
        ∀ x ∈ emitted, x.1 ∈ restrictedSimpleNames F ∧ x.2 = 1) ∧
    (∀ (input : Sentence) (cur_hypo : Hypothesis) (acc acc' : ScoreComponentCollection),
      F.m_sourceContext = false → F.m_targetContext = false →
      Evaluate F input cur_hypo acc = .ok acc' →
      ∃ emitted : List (String × Int), acc' = acc ++ emitted ∧
        ∀ x ∈ emitted, x.1 ∈ restrictedSimpleNames F ∧ x.2 = 1) ∧
    (restrictedSimpleNames F).card ≤
      (F.m_vocabSource.toFinset.card + 1) * (F.m_vocabTarget.toFinset.card + 1) := by
  refine ⟨?_, ?_, ?_, card_restrictedSimpleNames F⟩
  · intro tp pt s t hres
    obtain ⟨ws, wt, _, _, hs, ht⟩ := resolveAlignmentPoint_some F tp pt s t hres
    rw [hr] at hs ht
    have hs2 : s ∈ F.m_vocabSource ∨ s = "OTHER" := by
      rw [hs]; exact restrictWord_restricted _ _
    have ht2 : t ∈ F.m_vocabTarget ∨ t = "OTHER" := by
      rw [ht]; exact restrictWord_restricted _ _
    refine ⟨hs2, ht2, mem_restrictedSimpleNames F s t hs2 ht2, fun acc => ?_⟩
    unfold simpleStep SparsePlusEquals
    cases F.m_simple with
    | true => right; rfl
    | false => left; rfl
  · intro chart featureID acc acc' h
    obtain ⟨links, _, hacc⟩ := forEach_EvaluateChartPoint_ok F chart _ acc acc' h
    refine ⟨_, hacc, fun x hx => ?_⟩
    obtain ⟨pt, _, rfl⟩ := List.mem_map.mp hx
    exact simpleFeature_mem_restrictedSimpleNames F _ pt hr
  · intro input cur_hypo acc acc' hsc htc h
    rw [Evaluate_eq_forEach_EvaluateChartPoint F input cur_hypo acc hsc htc] at h
    obtain ⟨links, _, hacc⟩ := forEach_EvaluateChartPoint_ok F _ _ acc acc' h
    refine ⟨_, hacc, fun x hx => ?_⟩
    obtain ⟨pt, _, rfl⟩ := List.mem_map.mp hx
    exact simpleFeature_mem_restrictedSimpleNames F _ pt hr

/-- Witness for C18: restricted to two source words and two target words, the
chart hypothesis aligning "sat" to "assis" emits one name of the bounded set,
which has at most nine elements. -/
theorem restricted_simple_names_bounded_witness :
    (∃ emitted : List (String × Int), [("wt_OTHER~OTHER", (1 : Int))] = [] ++ emitted ∧
      ∀ x ∈ emitted, x.1 ∈ restrictedSimpleNames restrictedFeature ∧ x.2 = 1) ∧
    (restrictedSimpleNames restrictedFeature).card ≤
      (restrictedFeature.m_vocabSource.toFinset.card + 1) *
        (restrictedFeature.m_vocabTarget.toFinset.card + 1) :=
  ⟨(restricted_simple_names_bounded restrictedFeature rfl).2.1
      (chartOf (oneWordHypothesis "sat" "assis" 2 [])) 0 [] [("wt_OTHER~OTHER", 1)] rfl,
    (restricted_simple_names_bounded restrictedFeature rfl).2.2.2⟩

/-- C12: the ordering of the crossing keys is a strict total order: no key is
less than itself, the order is transitive, of two different keys (keys that
differ in span length, neighbour tag or crossing flag) one is less than the
other, and never both ways; a smaller span length decides, for equal span
lengths a smaller neighbour tag decides, for equal span lengths and tags the
key with flag false is the smaller one; two keys that differ only in the flag
have the key with flag false before the key with flag true. -/
theorem crossing_key_strict_total_order :
    (∀ a : CrossingFeatureData, a.lt a = false) ∧
    (∀ a b c : CrossingFeatureData, a.lt b = true → b.lt c = true → a.lt c = true) ∧
    (∀ a b : CrossingFeatureData, a ≠ b → a.lt b = true ∨ b.lt a = true) ∧
    (∀ a b : CrossingFeatureData, a.lt b = true → b.lt a = false) ∧
    (∀ a b : CrossingFeatureData, a.m_length < b.m_length → a.lt b = true) ∧
    (∀ a b : CrossingFeatureData, a.m_length = b.m_length → a.m_nonTerm < b.m_nonTerm →
      a.lt b = true) ∧
    (∀ a b : CrossingFeatureData, a.m_length = b.m_length → a.m_nonTerm = b.m_nonTerm →
      (a.lt b = true ↔ a.m_isCrossing = false ∧ b.m_isCrossing = true)) ∧
    (∀ (n : Int) (tag : String),
      CrossingFeatureData.lt { m_length := n, m_nonTerm := tag, m_isCrossing := false }
        { m_length := n, m_nonTerm := tag, m_isCrossing := true } = true ∧
      CrossingFeatureData.lt { m_length := n, m_nonTerm := tag, m_isCrossing := true }
        { m_length := n, m_nonTerm := tag, m_isCrossing := false } = false) := by
  refine ⟨crossingKey_lt_irrefl, crossingKey_lt_trans, crossingKey_lt_total, ?_, ?_, ?_, ?_, ?_⟩
  · intro a b hab
    cases hba : b.lt a with
    | false => rfl
    | true =>
      have := crossingKey_lt_trans a b a hab hba
      rw [crossingKey_lt_irrefl] at this
      cases this
  · intro a b h
    exact (crossingKey_lt_iff a b).mpr (Or.inl h)
  · intro a b hl hn
    exact (crossingKey_lt_iff a b).mpr (Or.inr ⟨hl, Or.inl hn⟩)
  · intro a b hl hn
    rw [crossingKey_lt_iff]
    constructor
    · rintro (h | ⟨_, h | ⟨_, h⟩⟩)
      · exact absurd h (by rw [hl]; exact lt_irrefl _)
      · exact absurd h (by rw [hn]; exact lt_irrefl _)
      · exact h
    · intro h
      exact Or.inr ⟨hl, Or.inr ⟨hn, h⟩⟩
  · intro n tag
    constructor
    · exact (crossingKey_lt_iff _ _).mpr (Or.inr ⟨rfl, Or.inr ⟨rfl, rfl, rfl⟩⟩)
    · simp [CrossingFeatureData.lt]

/-- C13: for a crossing table loaded from a file that can be opened, the load
succeeds; the score of a key is 0 when no record of the file has that key, and
it is exactly the weight of the record of the file for that key (the last such
record, when the file repeats the key); a table loaded from an empty file
scores 0 for every key; and loading the same file a second time on top of the
loaded table gives the same score for every key. -/
theorem crossing_table_score (fs : CrossingFiles) (dataPath : String)
    (records : List (CrossingFeatureData × ℚ)) (hopen : fs dataPath = some records) :
    (LoadDataFile fs dataPath []).1 = true ∧
    (∀ (n : Int) (tag : String) (c : Bool),
      (∀ r ∈ records, r.1 ≠ { m_length := n, m_nonTerm := tag, m_isCrossing := c }) →
      Score (LoadDataFile fs dataPath []).2 n tag c = 0) ∧
    (∀ (n : Int) (tag : String) (c : Bool) (w : ℚ),
      lastRecordFor records { m_length := n, m_nonTerm := tag, m_isCrossing := c } w →
      Score (LoadDataFile fs dataPath []).2 n tag c = w) ∧
    (records = [] → ∀ (n : Int) (tag : String) (c : Bool),
      Score (LoadDataFile fs dataPath []).2 n tag c = 0) ∧
    (∀ (n : Int) (tag : String) (c : Bool),
      Score (LoadDataFile fs dataPath (LoadDataFile fs dataPath []).2).2 n tag c =
        Score (LoadDataFile fs dataPath []).2 n tag c) := by
  have hL : ∀ m, LoadDataFile fs dataPath m = (true, records.reverse ++ m) :=
    fun m => LoadDataFile_of_open fs dataPath m records hopen
  rw [hL, hL]
  refine ⟨rfl, ?_, ?_, ?_, ?_⟩
  · intro n tag c habsent
    apply Score_of_find_none
    apply CrossingTable_find_none
    intro r hr
    rw [List.append_nil] at hr
    exact habsent r (List.mem_reverse.mp hr)
  · intro n tag c w hlast
    exact Score_of_find _ n tag c w (find_reverse_lastRecordFor records [] _ w hlast)
  · intro hempty n tag c
    rw [hempty]
    rfl
  · intro n tag c
    simp only [Score, CrossingTable_find_append, CrossingTable_find_nil, Option.or_none,
      Option.or_self]

/-- Witness for C13: the sample file holds the key (2, "NP", crossing) twice,
with weights 1 and 7, the key (3, "X", not crossing) once with weight 4, and
no record for the key (5, "NP", not crossing). -/
theorem crossing_table_score_witness :
    (LoadDataFile sampleCrossingFiles "crossing.model" []).1 = true ∧
    Score (LoadDataFile sampleCrossingFiles "crossing.model" []).2 5 "NP" false = 0 ∧
    Score (LoadDataFile sampleCrossingFiles "crossing.model" []).2 2 "NP" true = 7 ∧
    Score (LoadDataFile sampleCrossingFiles "crossing.model" []).2 3 "X" false = 4 ∧
    Score (LoadDataFile sampleCrossingFiles "crossing.model"
      (LoadDataFile sampleCrossingFiles "crossing.model" []).2).2 2 "NP" true =
      Score (LoadDataFile sampleCrossingFiles "crossing.model" []).2 2 "NP" true :=
  ⟨(crossing_table_score sampleCrossingFiles "crossing.model" _ rfl).1,
   (crossing_table_score sampleCrossingFiles "crossing.model" _ rfl).2.1 5 "NP" false
      (by decide),
   (crossing_table_score sampleCrossingFiles "crossing.model" _ rfl).2.2.1 2 "NP" true 7
      ⟨[({ m_length := 2, m_nonTerm := "NP", m_isCrossing := true }, 1),
        ({ m_length := 3, m_nonTerm := "X", m_isCrossing := false }, 4)], [], rfl,
        fun _ h => absurd h (List.not_mem_nil _)⟩,
   (crossing_table_score sampleCrossingFiles "crossing.model" _ rfl).2.2.1 3 "X" false 4
      ⟨[({ m_length := 2, m_nonTerm := "NP", m_isCrossing := true }, 1)],
        [({ m_length := 2, m_nonTerm := "NP", m_isCrossing := true }, 7)], rfl, by decide⟩,
   (crossing_table_score sampleCrossingFiles "crossing.model" _ rfl).2.2.2.2 2 "NP" true⟩

end Moses
